import Mathlib

/-!
A shallow embedding of `src/include/pipeline_builder.hpp` (namespace `pipeline`):
a typed dataflow pipeline builder with a BFS upstream-closure computation and a
worker-pool scheduler.  C++ `std::unordered_map` is modelled by association
lists (`alookup` returns the first binding, as map semantics; keys are inserted
at most once so order never matters), `std::any` by the closed value universe
`Val` with runtime type tags `Ty` (an `any_cast<T>` succeeds exactly when the
stored tag equals `T`), and exceptions by `Except`.  The scheduler is modelled
sequentially: the spec (section 4.4) guarantees run outcomes are deterministic
and independent of the worker count, so the FIFO single-worker execution order
is the canonical representative.  `hardware_concurrency()` is an environment
input, passed to `runP` as the parameter `hc`.
-/

namespace PipelineModel

/-- Stage identifier, `using Key = std::string`. -/
abbrev Key := String

/-- Runtime type tags for the closed universe of values the test-suite and the
helpers move through `std::any`: ints, strings, bools, byte vectors,
`std::monostate` and pairs. -/
inductive Ty : Type where
  | tint : Ty
  | tstr : Ty
  | tbool : Ty
  | tbytes : Ty
  | tunit : Ty
  | tpair : Ty → Ty → Ty
deriving DecidableEq

/-- Erased values (`std::any` contents). -/
inductive Val : Type where
  | vint : Int → Val
  | vstr : String → Val
  | vbool : Bool → Val
  | vbytes : List Nat → Val
  | vunit : Val
  | vpair : Val → Val → Val
deriving DecidableEq

/-- The runtime type tag of a stored value (what `typeid` sees inside the
`std::any`). -/
def tyOf : Val → Ty
  | .vint _ => .tint
  | .vstr _ => .tstr
  | .vbool _ => .tbool
  | .vbytes _ => .tbytes
  | .vunit => .tunit
  | .vpair a b => .tpair (tyOf a) (tyOf b)

/-- `enum class Error` of the source. -/
inductive Error : Type where
  | StageAlreadyExists : Error
  | UnknownStage : Error
  | TypeMismatch : Error
  | StageCountMismatch : Error
  | IoError : Error
  | RuntimeError : Error
  | InvalidThreadCount : Error
deriving DecidableEq

/-- `Port<T>`: a key together with the phantom output type `T` (the type is
compile-time in C++; the model reifies it as a `Ty` tag). -/
structure Port : Type where
  ty : Ty
  id : Key
deriving DecidableEq

/-- First-binding lookup in an association list: the semantics of
`std::unordered_map::find / at / contains`. -/
def alookup {α : Type} : List (Key × α) → Key → Option α
  | [], _ => none
  | kv :: rest, q => if kv.1 = q then some kv.2 else alookup rest q

/-- Update the (first) binding of `k` in place, the semantics of
`m.at(k) = f(m.at(k))`; a no-op when `k` is absent (the C++ `at` would throw,
which never happens on the states the theorems quantify over). -/
def updAt {α : Type} : List (Key × α) → Key → (α → α) → List (Key × α)
  | [], _, _ => []
  | kv :: rest, k, f =>
    if kv.1 = k then (kv.1, f kv.2) :: rest else kv :: updAt rest k f

/-- `m[k] = v`: overwrite the binding if present, append it otherwise
(the semantics of `unordered_map::operator[]` assignment). -/
def setk {α : Type} : List (Key × α) → Key → α → List (Key × α)
  | [], k, v => [(k, v)]
  | kv :: rest, k, v =>
    if kv.1 = k then (k, v) :: rest else kv :: setk rest k v

/-- `m.try_emplace(k, v)`: insert only when the key is absent. -/
def tryEmplace {α : Type} (m : List (Key × α)) (k : Key) (v : α) : List (Key × α) :=
  if (alookup m k).isSome then m else m ++ [(k, v)]

/-- Position of the first binding of `k` (insertion rank of a stage; equals the
list length when `k` is absent). -/
def keyIdx {α : Type} : List (Key × α) → Key → Nat
  | [], _ => 0
  | kv :: rest, k => if kv.1 = k then 0 else keyIdx rest k + 1

/-- The erased stage object stored in the registry: what `IStage::run` needs.
`stage1` records the declared input type `In` used by its
`any_cast<const In &>`, `joinStage` records both declared input types. -/
inductive StageDef : Type where
  | stage0 : (Unit → Except Unit Val) → StageDef
  | stage1 : Ty → Key → (Val → Except Unit Val) → StageDef
  | joinStage : Ty → Ty → Key → Key → StageDef

/-- The `Pipeline` object: the four graph maps plus the `Context`'s
`stage_results` store (the mutex is concurrency plumbing with no sequential
content). -/
structure PState : Type where
  stages : List (Key × StageDef)
  downstream_edges : List (Key × List Key)
  upstream_edges : List (Key × List Key)
  in_degree : List (Key × Int)
  stage_results : List (Key × Val)

/-- `Pipeline()` constructs empty. -/
def emptyP : PState :=
  { stages := [], downstream_edges := [], upstream_edges := [],
    in_degree := [], stage_results := [] }

/-- `upstream_edges[k]`, defaulting to the empty list off-domain. -/
def upList (up : List (Key × List Key)) (k : Key) : List Key :=
  (alookup up k).getD []

/-- `downstream_edges[k]`, defaulting to the empty list off-domain. -/
def dnList (dn : List (Key × List Key)) (k : Key) : List Key :=
  (alookup dn k).getD []

/-- Source-stage constructor `add_stage<Out>(id, func)` (zero inputs). -/
def add_stage0 (p : PState) (id : Key) (outTy : Ty) (f : Unit → Except Unit Val) :
    Except Error Port × PState :=
  if (alookup p.stages id).isSome then (.error .StageAlreadyExists, p)
  else
    (.ok ⟨outTy, id⟩,
      { p with
        stages := tryEmplace p.stages id (.stage0 f)
        downstream_edges := tryEmplace p.downstream_edges id []
        upstream_edges := tryEmplace p.upstream_edges id []
        in_degree := tryEmplace p.in_degree id 0 })

/-- Unary-stage constructor `add_stage<Out, In>(id, func, upstream)`: the
declared input type is the upstream port's type `In`. -/
def add_stage1 (p : PState) (id : Key) (outTy : Ty) (f : Val → Except Unit Val)
    (upstream : Port) : Except Error Port × PState :=
  if (alookup p.stages id).isSome then (.error .StageAlreadyExists, p)
  else if (alookup p.stages upstream.id).isNone then (.error .UnknownStage, p)
  else
    (.ok ⟨outTy, id⟩,
      { p with
        stages := tryEmplace p.stages id (.stage1 upstream.ty upstream.id f)
        downstream_edges :=
          updAt (tryEmplace p.downstream_edges id []) upstream.id (fun l => l ++ [id])
        upstream_edges :=
          updAt (tryEmplace p.upstream_edges id []) id (fun l => l ++ [upstream.id])
        in_degree := updAt (tryEmplace p.in_degree id 0) id (fun n => n + 1) })

/-- `join<In1, In2>(id, in1, in2)`: pairs two upstream values. -/
def join (p : PState) (id : Key) (in1 in2 : Port) : Except Error Port × PState :=
  if (alookup p.stages id).isSome then (.error .StageAlreadyExists, p)
  else if (alookup p.stages in1.id).isNone then (.error .UnknownStage, p)
  else if (alookup p.stages in2.id).isNone then (.error .UnknownStage, p)
  else
    (.ok ⟨.tpair in1.ty in2.ty, id⟩,
      { p with
        stages := tryEmplace p.stages id (.joinStage in1.ty in2.ty in1.id in2.id)
        downstream_edges :=
          updAt (updAt (tryEmplace p.downstream_edges id []) in1.id (fun l => l ++ [id]))
            in2.id (fun l => l ++ [id])
        upstream_edges :=
          updAt (tryEmplace p.upstream_edges id []) id (fun l => l ++ [in1.id, in2.id])
        in_degree := updAt (tryEmplace p.in_degree id 0) id (fun n => n + 2) })

/-- `write_bytes_to_file(id, path, bytes_input)`: a duplicate-key check and
then an ordinary unary stage whose user function performs the write; the
filesystem effect of the captured path is abstracted as `fsW` (the C++ lambda
throws on failure, modelled by `Except.error`).  The declared input type is
`std::vector<std::uint8_t>`, the output `std::monostate`. -/
def write_bytes_to_file (p : PState) (id : Key) (fsW : List Nat → Except Unit Unit)
    (bytes_input : Port) : Except Error Port × PState :=
  if (alookup p.stages id).isSome then (.error .StageAlreadyExists, p)
  else
    add_stage1 p id .tunit
      (fun v =>
        match v with
        | .vbytes bs =>
          match fsW bs with
          | .ok _ => .ok .vunit
          | .error _ => .error ()
        | _ => .error ())
      ⟨.tbytes, bytes_input.id⟩

/-- `read_bytes_from_file(id, path, after?)`: a duplicate-key check and then a
unary stage over the optional `Port<std::monostate>` ordering token, or a
source stage when `after` is absent; the read of the captured path is
abstracted as `fsR` (the lambda throws on open failure). -/
def read_bytes_from_file (p : PState) (id : Key) (fsR : Except Unit (List Nat))
    (after : Option Port) : Except Error Port × PState :=
  if (alookup p.stages id).isSome then (.error .StageAlreadyExists, p)
  else
    match after with
    | some ap =>
      add_stage1 p id .tbytes
        (fun _ =>
          match fsR with
          | .ok bs => .ok (.vbytes bs)
          | .error _ => .error ())
        ⟨.tunit, ap.id⟩
    | none =>
      add_stage0 p id .tbytes
        (fun _ =>
          match fsR with
          | .ok bs => .ok (.vbytes bs)
          | .error _ => .error ())

/-- All keys that `get_all_upstream_stages` can ever visit: the start key, the
map's keys and every edge target.  Its length bounds the BFS fuel. -/
def allNodes (up : List (Key × List Key)) (start : Key) : List Key :=
  start :: up.foldr (fun kv acc => kv.1 :: kv.2 ++ acc) []

/-- The body of the neighbor loop of `get_all_upstream_stages`: walk the
neighbor list once, inserting each not-yet-visited neighbor into the visited
set and collecting it (in order) for the frontier queue.  Returns the new
visited set and the newly discovered keys. -/
def addNew : List Key → List Key → List Key × List Key
  | visited, [] => (visited, [])
  | visited, n :: ns =>
    if n ∈ visited then addNew visited ns
    else
      let pr := addNew (visited ++ [n]) ns
      (pr.1, n :: pr.2)

/-- The BFS loop of `get_all_upstream_stages` over (visited set, FIFO
frontier).  The fuel argument only forces structural termination; the fuel
passed by `get_all_upstream_stages` is proven sufficient (`bfsAux` decreases
the measure `|bound \ visited| + |frontier|` by exactly one per iteration), so
the out-of-fuel branch is unreachable there. -/
def bfsAux (up : List (Key × List Key)) : Nat → List Key → List Key → Except Error (List Key)
  | _, visited, [] => .ok visited
  | 0, visited, _ :: _ => .ok visited
  | fuel + 1, visited, curr :: rest =>
    match alookup up curr with
    | none => .error .UnknownStage
    | some nbrs =>
      let pr := addNew visited nbrs
      bfsAux up fuel pr.1 (rest ++ pr.2)

/-- `Pipeline::get_all_upstream_stages`: BFS over `upstream_edges` from `key`
inclusive; `UnknownStage` as soon as a visited key has no entry. -/
def get_all_upstream_stages (up : List (Key × List Key)) (key : Key) :
    Except Error (List Key) :=
  bfsAux up ((allNodes up key).length + 1) [key] [key]

/-- `IStage::run` up to the store write: fetch each declared input from the
store and reify it (`any_cast` fails unless the stored tag equals the declared
type), then invoke the user computation.  Any failure — missing entry
(`std::out_of_range`), reification failure (`std::bad_any_cast`), or a user
throw — is an exception at the stage boundary, i.e. `Except.error`. -/
def execStage (store : List (Key × Val)) : StageDef → Except Unit Val
  | .stage0 f => f ()
  | .stage1 inTy dep f =>
    match alookup store dep with
    | none => .error ()
    | some v => if tyOf v = inTy then f v else .error ()
  | .joinStage t1 t2 d1 d2 =>
    match alookup store d1 with
    | none => .error ()
    | some v1 =>
      if tyOf v1 = t1 then
        match alookup store d2 with
        | none => .error ()
        | some v2 =>
          if tyOf v2 = t2 then .ok (.vpair v1 v2) else .error ()
      else .error ()

/-- The downstream bookkeeping after a stage completes: for each
`d ∈ downstream_edges[curr]` with `d` in the run set, decrement
`indeg_for_run[d]` and enqueue `d` when it reaches zero. -/
def processDownstream (S : List Key) :
    List (Key × Int) → List Key → List Key → List (Key × Int) × List Key
  | indeg, ready, [] => (indeg, ready)
  | indeg, ready, d :: ds =>
    if d ∈ S then
      let indeg' := updAt indeg d (fun x => x - 1)
      let ready' := if alookup indeg' d = some 0 then ready ++ [d] else ready
      processDownstream S indeg' ready' ds
    else processDownstream S indeg ready ds

/-- Sum of the nonnegative parts of the per-run in-degrees; together with the
ready-queue length this is the loop variant. -/
def isum : List (Key × Int) → Nat
  | [] => 0
  | kv :: rest => kv.2.toNat + isum rest

/-- The worker loop, sequentialized (see the module comment): repeatedly pop
the FIFO ready queue, run the stage (`stages.at` miss, input reification
failure and user throws are all caught at this boundary and recorded in the
`failed` flag), publish the result, and release downstream stages.  Returns
the final store and the `failed` flag.  The fuel only forces structural
termination; the fuel passed by `runP` is proven sufficient, the out-of-fuel
branch being unreachable from it. -/
def runLoopF (stages : List (Key × StageDef)) (dn : List (Key × List Key))
    (S : List Key) :
    Nat → List (Key × Val) → List (Key × Int) → List Key → List (Key × Val) × Bool
  | _, store, _, [] => (store, false)
  | 0, store, _, _ :: _ => (store, false)
  | fuel + 1, store, indeg, curr :: rest =>
    match alookup stages curr with
    | none => (store, true)
    | some st =>
      match execStage store st with
      | .error _ => (store, true)
      | .ok v =>
        let store' := setk store curr v
        let pr := processDownstream S indeg rest (dnList dn curr)
        runLoopF stages dn S fuel store' pr.1 pr.2

/-- `indeg_for_run`: for each key of the run set, a copy of its static
in-degree (emplaced in run-set order). -/
def initIndeg (ind : List (Key × Int)) (S : List Key) : List (Key × Int) :=
  S.filterMap (fun k => (alookup ind k).map (fun v => (k, v)))

/-- The initially ready stages: members of the run set whose per-run in-degree
starts at zero. -/
def initReady (indeg0 : List (Key × Int)) (S : List Key) : List Key :=
  S.filter (fun k => decide (alookup indeg0 k = some 0))

/-- The whole scheduler phase of a run over the computed run set `S`: per-run
in-degree copies, initial ready queue, and the worker loop started on the
cleared (empty) result store, with its proven-sufficient fuel. -/
def runLoopResult (p : PState) (S : List Key) : List (Key × Val) × Bool :=
  let indeg0 := initIndeg p.in_degree S
  let ready0 := initReady indeg0 S
  runLoopF p.stages p.downstream_edges S
    (ready0.length + isum indeg0 + 1) [] indeg0 ready0

/-- `Pipeline::run(port, num_threads)`, with `hc` the value of
`std::thread::hardware_concurrency()`: validate the thread count, clear the
result store (`stage_results := []`; the four graph maps are untouched by a
run, so the closure and the loop read them straight from `p`), compute the
upstream closure, drive the scheduler loop, and fetch the target's value with
a final `any_cast<T>` (`bad_any_cast` maps to `TypeMismatch`, a missing entry
— `std::out_of_range` — to `UnknownStage`).  Returns the run result together
with the post-run pipeline state. -/
def runP (p : PState) (tgt : Key) (tgtTy : Ty) (numThreads hc : Nat) :
    Except Error Val × PState :=
  if numThreads = 0 ∨ (hc ≠ 0 ∧ numThreads > hc) then
    (.error .InvalidThreadCount, p)
  else
    match get_all_upstream_stages p.upstream_edges tgt with
    | .error e => (.error e, { p with stage_results := [] })
    | .ok S =>
      let r := runLoopResult p S
      let p2 : PState := { p with stage_results := r.1 }
      if r.2 then (.error .RuntimeError, p2)
      else
        match alookup r.1 tgt with
        | none => (.error .UnknownStage, p2)
        | some v => if tyOf v = tgtTy then (.ok v, p2) else (.error .TypeMismatch, p2)

/-- One builder invocation (the five public constructors), reified so that
sequences of calls and failure-framing can be quantified over uniformly. -/
inductive BuilderCall : Type where
  | src : Key → Ty → (Unit → Except Unit Val) → BuilderCall
  | unary : Key → Ty → (Val → Except Unit Val) → Port → BuilderCall
  | joinC : Key → Port → Port → BuilderCall
  | writeFile : Key → (List Nat → Except Unit Unit) → Port → BuilderCall
  | readFile : Key → Except Unit (List Nat) → Option Port → BuilderCall

/-- Dispatch a reified builder call. -/
def applyCall (p : PState) : BuilderCall → Except Error Port × PState
  | .src id outTy f => add_stage0 p id outTy f
  | .unary id outTy f up => add_stage1 p id outTy f up
  | .joinC id in1 in2 => join p id in1 in2
  | .writeFile id fsW bi => write_bytes_to_file p id fsW bi
  | .readFile id fsR after => read_bytes_from_file p id fsR after

/-- Pipeline states reachable from `Pipeline()` by successful builder calls. -/
inductive Built : PState → Prop where
  | empty : Built emptyP
  | step {p : PState} {c : BuilderCall} {port : Port} {p' : PState} :
      Built p → applyCall p c = (.ok port, p') → Built p'

/-! ### Association-list lemmas -/

theorem alookup_append_left {α : Type} {m m' : List (Key × α)} {q : Key} {v : α}
    (h : alookup m q = some v) : alookup (m ++ m') q = some v := by
  induction m with
  | nil => simp [alookup] at h
  | cons kv rest ih =>
    simp only [alookup, List.cons_append] at h ⊢
    split at h
    · simpa [*] using h
    · simp only [*, if_neg]
      exact ih h

theorem alookup_append_right {α : Type} {m : List (Key × α)} (m' : List (Key × α)) {q : Key}
    (h : alookup m q = none) : alookup (m ++ m') q = alookup m' q := by
  induction m with
  | nil => simp [alookup]
  | cons kv rest ih =>
    simp only [alookup, List.cons_append] at h ⊢
    split at h
    · exact absurd h (by simp)
    · simp only [*, if_neg]
      exact ih h

theorem alookup_updAt_self {α : Type} (m : List (Key × α)) (k : Key) (f : α → α) :
    alookup (updAt m k f) k = (alookup m k).map f := by
  induction m with
  | nil => simp [alookup, updAt]
  | cons kv rest ih =>
    by_cases hk : kv.1 = k
    · simp [updAt, alookup, hk]
    · simp only [updAt, if_neg hk, alookup, if_neg hk]
      exact ih

theorem alookup_updAt_ne {α : Type} (m : List (Key × α)) (k : Key) (f : α → α) {q : Key}
    (h : q ≠ k) : alookup (updAt m k f) q = alookup m q := by
  induction m with
  | nil => simp [updAt]
  | cons kv rest ih =>
    have hkq : ¬ k = q := fun hh => h hh.symm
    by_cases hk : kv.1 = k
    · have hq : ¬ kv.1 = q := by
        intro he
        exact h (by rw [← he, hk])
      simp [updAt, alookup, hk, hq, hkq]
    · by_cases hq : kv.1 = q
      · simp [updAt, alookup, hk, hq, hkq, h]
      · simp only [updAt, if_neg hk, alookup, if_neg hq]
        exact ih

theorem isSome_updAt {α : Type} (m : List (Key × α)) (k : Key) (f : α → α) (q : Key) :
    (alookup (updAt m k f) q).isSome = (alookup m q).isSome := by
  by_cases h : q = k
  · subst h
    rw [alookup_updAt_self]
    cases alookup m q <;> simp
  · rw [alookup_updAt_ne _ _ _ h]

theorem alookup_tryEmplace_ne {α : Type} (m : List (Key × α)) (k : Key) (v : α) {q : Key}
    (h : q ≠ k) : alookup (tryEmplace m k v) q = alookup m q := by
  unfold tryEmplace
  split
  · rfl
  · rcases hq : alookup m q with _ | w
    · rw [alookup_append_right _ hq]
      have hkq : ¬ k = q := fun hh => h hh.symm
      simp [alookup, hkq]
    · exact alookup_append_left hq

theorem alookup_tryEmplace_self {α : Type} (m : List (Key × α)) (k : Key) (v : α)
    (h : alookup m k = none) : alookup (tryEmplace m k v) k = some v := by
  unfold tryEmplace
  rw [if_neg (by simp [h]), alookup_append_right _ h]
  simp [alookup]

theorem tryEmplace_of_isSome {α : Type} (m : List (Key × α)) (k : Key) (v : α)
    (h : (alookup m k).isSome) : tryEmplace m k v = m := by
  unfold tryEmplace
  simp [h]

theorem alookup_setk_self {α : Type} (m : List (Key × α)) (k : Key) (v : α) :
    alookup (setk m k v) k = some v := by
  induction m with
  | nil => simp [setk, alookup]
  | cons kv rest ih =>
    by_cases hk : kv.1 = k
    · simp [setk, alookup, hk]
    · simp only [setk, if_neg hk, alookup, if_neg hk]
      exact ih

theorem alookup_setk_ne {α : Type} (m : List (Key × α)) (k : Key) (v : α) {q : Key}
    (h : q ≠ k) : alookup (setk m k v) q = alookup m q := by
  induction m with
  | nil =>
    have hkq : ¬ k = q := fun hh => h hh.symm
    simp [setk, alookup, hkq]
  | cons kv rest ih =>
    by_cases hk : kv.1 = k
    · have hq : ¬ kv.1 = q := by
        intro he
        exact h (by rw [← he, hk])
      have hkq : ¬ k = q := fun hh => h hh.symm
      simp [setk, alookup, hk, hq, hkq]
    · by_cases hq : kv.1 = q
      · simp [setk, alookup, hk, hq, h]
      · simp only [setk, if_neg hk, alookup, if_neg hq]
        exact ih

theorem isSome_setk {α : Type} (m : List (Key × α)) (k : Key) (v : α) (q : Key) :
    (alookup (setk m k v) q).isSome ↔ q = k ∨ (alookup m q).isSome := by
  by_cases h : q = k
  · subst h
    simp [alookup_setk_self]
  · rw [alookup_setk_ne _ _ _ h]
    simp [h]

/-! ### Insertion-rank lemmas -/

theorem keyIdx_append_left {α : Type} {m : List (Key × α)} (m' : List (Key × α)) {q : Key}
    (h : (alookup m q).isSome) : keyIdx (m ++ m') q = keyIdx m q := by
  induction m with
  | nil => simp [alookup] at h
  | cons kv rest ih =>
    simp only [alookup] at h
    by_cases hk : kv.1 = q
    · simp [keyIdx, hk]
    · simp only [if_neg hk] at h
      simp [keyIdx, hk, ih h]

theorem keyIdx_lt_length {α : Type} {m : List (Key × α)} {q : Key}
    (h : (alookup m q).isSome) : keyIdx m q < m.length := by
  induction m with
  | nil => simp [alookup] at h
  | cons kv rest ih =>
    simp only [alookup] at h
    by_cases hk : kv.1 = q
    · simp [keyIdx, hk]
    · simp only [if_neg hk] at h
      simpa [keyIdx, hk] using ih h

theorem keyIdx_append_self {α : Type} {m : List (Key × α)} {k : Key} (v : α)
    (h : alookup m k = none) : keyIdx (m ++ [(k, v)]) k = m.length := by
  induction m with
  | nil => simp [keyIdx]
  | cons kv rest ih =>
    simp only [alookup] at h
    by_cases hk : kv.1 = k
    · rw [if_pos hk] at h; exact absurd h (by simp)
    · rw [if_neg hk] at h
      simp [keyIdx, hk, ih h]

/-! ### `isum` lemmas -/

theorem isum_updAt_le (m : List (Key × Int)) (k : Key) :
    isum (updAt m k (fun x => x - 1)) ≤ isum m := by
  induction m with
  | nil => simp [updAt]
  | cons kv rest ih =>
    by_cases hk : kv.1 = k
    · simp only [updAt, if_pos hk, isum]
      have : (kv.2 - 1).toNat ≤ kv.2.toNat := by omega
      omega
    · simp only [updAt, if_neg hk, isum]
      omega

theorem isum_updAt_sub {m : List (Key × Int)} {k : Key} {x : Int}
    (h : alookup m k = some x) (hx : 0 < x) :
    isum (updAt m k (fun y => y - 1)) + 1 = isum m := by
  induction m with
  | nil => simp [alookup] at h
  | cons kv rest ih =>
    by_cases hk : kv.1 = k
    · simp only [alookup, if_pos hk] at h
      injection h with h
      simp only [updAt, if_pos hk, isum, ← h]
      omega
    · simp only [alookup, if_neg hk] at h
      simp only [updAt, if_neg hk, isum]
      have := ih h
      omega


/-! ### `addNew` lemmas -/

theorem addNew_fst (visited ns : List Key) :
    (addNew visited ns).1 = visited ++ (addNew visited ns).2 := by
  induction ns generalizing visited with
  | nil => simp [addNew]
  | cons n ns ih =>
    by_cases h : n ∈ visited
    · simp [addNew, h, ih]
    · simp [addNew, h, ih (visited ++ [n])]

theorem addNew_snd_sub {visited ns : List Key} :
    ∀ x ∈ (addNew visited ns).2, x ∈ ns ∧ x ∉ visited := by
  induction ns generalizing visited with
  | nil => simp [addNew]
  | cons n ns ih =>
    intro x hx
    by_cases h : n ∈ visited
    · simp only [addNew, if_pos h] at hx
      have := @ih visited x hx
      exact ⟨List.mem_cons_of_mem _ this.1, this.2⟩
    · simp only [addNew, if_neg h] at hx
      rcases List.mem_cons.mp hx with rfl | hx
      · exact ⟨List.mem_cons_self _ _, h⟩
      · have := @ih (visited ++ [n]) x hx
        refine ⟨List.mem_cons_of_mem _ this.1, fun hv => this.2 ?_⟩
        exact List.mem_append_left _ hv

theorem addNew_mem_fst {visited ns : List Key} (x : Key) :
    x ∈ (addNew visited ns).1 ↔ x ∈ visited ∨ x ∈ ns := by
  induction ns generalizing visited with
  | nil => simp [addNew]
  | cons n ns ih =>
    by_cases h : n ∈ visited
    · simp only [addNew, if_pos h, ih, List.mem_cons]
      constructor
      · rintro (hv | hn)
        · exact Or.inl hv
        · exact Or.inr (Or.inr hn)
      · rintro (hv | rfl | hn)
        · exact Or.inl hv
        · exact Or.inl h
        · exact Or.inr hn
    · have ihn := @ih (visited ++ [n])
      simp only [addNew, if_neg h, ihn, List.mem_append, List.mem_cons,
        List.mem_singleton]
      tauto

theorem addNew_nodup {visited ns : List Key} (h : visited.Nodup) :
    (addNew visited ns).1.Nodup := by
  induction ns generalizing visited with
  | nil => simpa [addNew]
  | cons n ns ih =>
    by_cases hm : n ∈ visited
    · simp only [addNew, if_pos hm]
      exact ih h
    · simp only [addNew, if_neg hm]
      exact ih (by simp [List.nodup_append, h, hm])

theorem addNew_snd_nodup {visited ns : List Key} (h : visited.Nodup) :
    (addNew visited ns).2.Nodup := by
  have h1 := @addNew_nodup visited ns h
  rw [addNew_fst] at h1
  exact (List.nodup_append.mp h1).2.1

/-! ### BFS correctness -/

/-- One upstream edge: `b` appears in `upstream_edges[a]`. -/
def upEdge (up : List (Key × List Key)) (a b : Key) : Prop :=
  ∃ l, alookup up a = some l ∧ b ∈ l

/-- `k` lies in the upstream closure of `t`: reachable from `t` (inclusive) by
following upstream edges. -/
def ReachUp (up : List (Key × List Key)) (t k : Key) : Prop :=
  Relation.ReflTransGen (upEdge up) t k

/-- Every edge target occurs in `allNodes`. -/
theorem target_mem_allNodes {up : List (Key × List Key)} {k : Key} {l : List Key}
    (s : Key) (h : alookup up k = some l) {n : Key} (hn : n ∈ l) :
    n ∈ allNodes up s := by
  unfold allNodes
  refine List.mem_cons_of_mem _ ?_
  induction up with
  | nil => simp [alookup] at h
  | cons kv rest ih =>
    simp only [alookup] at h
    simp only [List.foldr_cons]
    by_cases hk : kv.1 = k
    · rw [if_pos hk] at h
      injection h with h
      subst h
      exact List.mem_cons_of_mem _ (List.mem_append_left _ hn)
    · rw [if_neg hk] at h
      exact List.mem_cons_of_mem _ (List.mem_append_right _ (ih h))

/-- The BFS loop invariant. -/
structure BfsInv (up : List (Key × List Key)) (s : Key) (visited frontier : List Key) :
    Prop where
  start_mem : s ∈ visited
  reach : ∀ x ∈ visited, ReachUp up s x
  front_sub : ∀ x ∈ frontier, x ∈ visited
  processed : ∀ x ∈ visited, x ∉ frontier →
    ∃ l, alookup up x = some l ∧ ∀ n ∈ l, n ∈ visited
  vnodup : visited.Nodup

theorem bfs_step_inv {up : List (Key × List Key)} {s curr : Key}
    {visited rest nbrs : List Key}
    (inv : BfsInv up s visited (curr :: rest))
    (h : alookup up curr = some nbrs) :
    BfsInv up s (addNew visited nbrs).1 (rest ++ (addNew visited nbrs).2) := by
  have hfst := addNew_fst visited nbrs
  refine ⟨?_, ?_, ?_, ?_, addNew_nodup inv.vnodup⟩
  · rw [addNew_mem_fst]; exact Or.inl inv.start_mem
  · intro x hx
    rcases (addNew_mem_fst x).mp hx with hv | hn
    · exact inv.reach x hv
    · have hcur : ReachUp up s curr := inv.reach curr (inv.front_sub curr (by simp))
      exact Relation.ReflTransGen.tail hcur ⟨nbrs, h, hn⟩
  · intro x hx
    rcases List.mem_append.mp hx with hr | ha
    · rw [addNew_mem_fst]
      exact Or.inl (inv.front_sub x (List.mem_cons_of_mem _ hr))
    · rw [hfst]; exact List.mem_append_right _ ha
  · intro x hx hnf
    have hx2 : x ∈ visited ++ (addNew visited nbrs).2 := by rw [← hfst]; exact hx
    rcases List.mem_append.mp hx2 with hv | ha
    · by_cases hc : x = curr
      · subst hc
        exact ⟨nbrs, h, fun n hn => (addNew_mem_fst n).mpr (Or.inr hn)⟩
      · have hxf : x ∉ curr :: rest := by
          intro hmem
          rcases List.mem_cons.mp hmem with h1 | h1
          · exact hc h1
          · exact hnf (List.mem_append_left _ h1)
        obtain ⟨l, hl, hsub⟩ := inv.processed x hv hxf
        exact ⟨l, hl, fun n hnl => (addNew_mem_fst n).mpr (Or.inl (hsub n hnl))⟩
    · exact absurd (List.mem_append_right _ ha) hnf

/-- The measure `|allNodes \ visited| + |frontier|` decreases by exactly one
per BFS iteration. -/
theorem bfs_step_measure {up : List (Key × List Key)} {s curr : Key}
    {visited rest nbrs : List Key}
    (hnd : visited.Nodup)
    (h : alookup up curr = some nbrs) :
    ((allNodes up s).toFinset \ (addNew visited nbrs).1.toFinset).card
        + (rest ++ (addNew visited nbrs).2).length + 1
      = ((allNodes up s).toFinset \ visited.toFinset).card + (curr :: rest).length := by
  have hfst := addNew_fst visited nbrs
  set added := (addNew visited nbrs).2 with hadded
  have hsub : added.toFinset ⊆ (allNodes up s).toFinset \ visited.toFinset := by
    intro x hx
    rw [List.mem_toFinset] at hx
    obtain ⟨hns, hnv⟩ := addNew_snd_sub x hx
    rw [Finset.mem_sdiff, List.mem_toFinset, List.mem_toFinset]
    exact ⟨target_mem_allNodes s h hns, hnv⟩
  have hfin : (addNew visited nbrs).1.toFinset = visited.toFinset ∪ added.toFinset := by
    rw [hfst, List.toFinset_append]
  have hsd : (allNodes up s).toFinset \ (visited.toFinset ∪ added.toFinset)
      = ((allNodes up s).toFinset \ visited.toFinset) \ added.toFinset := by
    ext x
    simp only [Finset.mem_sdiff, Finset.mem_union]
    tauto
  have hcardA : added.toFinset.card = added.length :=
    List.toFinset_card_of_nodup (addNew_snd_nodup hnd)
  have hle : added.toFinset.card ≤ ((allNodes up s).toFinset \ visited.toFinset).card :=
    Finset.card_le_card hsub
  have hcard : (((allNodes up s).toFinset \ visited.toFinset) \ added.toFinset).card
      = ((allNodes up s).toFinset \ visited.toFinset).card - added.toFinset.card :=
    Finset.card_sdiff hsub
  rw [hfin, hsd, hcard]
  simp only [List.length_append, List.length_cons]
  omega

/-- A set containing the start key and closed under present upstream edges
contains the whole upstream closure. -/
theorem reach_mem_closed {up : List (Key × List Key)} {s : Key} {visited : List Key}
    (hs : s ∈ visited)
    (hcl : ∀ x ∈ visited, ∃ l, alookup up x = some l ∧ ∀ n ∈ l, n ∈ visited) :
    ∀ k, ReachUp up s k → k ∈ visited := by
  intro k hk
  induction hk with
  | refl => exact hs
  | tail hab hbc ihab =>
    obtain ⟨l, hl, hsub⟩ := hcl _ ihab
    obtain ⟨l', hl', hmem⟩ := hbc
    rw [hl] at hl'
    injection hl' with hl'
    subst hl'
    exact hsub _ hmem

/-- If the BFS loop returns a visited set, that set is exactly the upstream
closure of the start key, every closure member having an `upstream_edges`
entry — provided the fuel dominates the loop variant. -/
theorem bfsAux_ok_char (up : List (Key × List Key)) (s : Key) :
    ∀ fuel visited frontier,
      ((allNodes up s).toFinset \ visited.toFinset).card + frontier.length + 1 ≤ fuel →
      BfsInv up s visited frontier →
      ∀ S, bfsAux up fuel visited frontier = .ok S →
        S.Nodup ∧ (∀ k, k ∈ S ↔ ReachUp up s k) ∧
          ∀ k, ReachUp up s k → (alookup up k).isSome := by
  intro fuel
  induction fuel with
  | zero =>
    intro visited frontier hμ
    exact absurd hμ (by omega)
  | succ fuel ih =>
    intro visited frontier hμ inv S hrun
    cases frontier with
    | nil =>
      simp only [bfsAux] at hrun
      injection hrun with hS
      subst hS
      have hcl : ∀ x ∈ visited, ∃ l, alookup up x = some l ∧ ∀ n ∈ l, n ∈ visited := by
        intro x hx
        exact inv.processed x hx (by simp)
      refine ⟨inv.vnodup, fun k => ⟨fun hk => inv.reach k hk, fun hk => ?_⟩, fun k hk => ?_⟩
      · exact reach_mem_closed inv.start_mem hcl k hk
      · obtain ⟨l, hl, _⟩ := hcl k (reach_mem_closed inv.start_mem hcl k hk)
        simp [hl]
    | cons curr rest =>
      rcases hcur : alookup up curr with _ | nbrs
      · simp only [bfsAux, hcur] at hrun
        exact absurd hrun (by simp)
      · simp only [bfsAux, hcur] at hrun
        have hmeas := @bfs_step_measure up s curr visited rest nbrs inv.vnodup hcur
        refine ih _ _ (by omega) (bfs_step_inv inv hcur) S hrun

/-- If the BFS loop fails, the error is `UnknownStage` and some key of the
upstream closure has no `upstream_edges` entry. -/
theorem bfsAux_err (up : List (Key × List Key)) (s : Key) :
    ∀ fuel visited frontier e,
      BfsInv up s visited frontier →
      bfsAux up fuel visited frontier = .error e →
      e = .UnknownStage ∧ ∃ k, ReachUp up s k ∧ alookup up k = none := by
  intro fuel
  induction fuel with
  | zero =>
    intro visited frontier e _ hrun
    cases frontier <;> simp [bfsAux] at hrun
  | succ fuel ih =>
    intro visited frontier e inv hrun
    cases frontier with
    | nil => simp [bfsAux] at hrun
    | cons curr rest =>
      rcases hcur : alookup up curr with _ | nbrs
      · simp only [bfsAux, hcur] at hrun
        injection hrun with h
        exact ⟨h.symm, curr, inv.reach curr (inv.front_sub curr (by simp)), hcur⟩
      · simp only [bfsAux, hcur] at hrun
        exact ih _ _ _ (bfs_step_inv inv hcur) hrun

/-- The BFS invariant holds at the entry of `get_all_upstream_stages`. -/
theorem bfsInv_init (up : List (Key × List Key)) (t : Key) : BfsInv up t [t] [t] := by
  refine ⟨by simp, ?_, fun x hx => hx, ?_, by simp⟩
  · intro x hx
    rcases List.mem_singleton.mp hx with rfl
    exact Relation.ReflTransGen.refl
  · intro x hx hnx
    exact absurd hx hnx

/-- `get_all_upstream_stages` success: the returned set is exactly the
upstream closure, and every closure member is registered in the upstream
map. -/
theorem gaus_ok_char {up : List (Key × List Key)} {t : Key} {S : List Key}
    (h : get_all_upstream_stages up t = .ok S) :
    S.Nodup ∧ (∀ k, k ∈ S ↔ ReachUp up t k) ∧
      ∀ k, ReachUp up t k → (alookup up k).isSome := by
  have ht : t ∈ (allNodes up t).toFinset := by simp [allNodes]
  have hsub : ([t] : List Key).toFinset ⊆ (allNodes up t).toFinset := by
    intro x hx
    simp only [List.toFinset_cons, List.toFinset_nil, insert_emptyc_eq,
      Finset.mem_singleton] at hx
    subst hx
    exact ht
  have hc := Finset.card_sdiff hsub
  have hl := List.toFinset_card_le (allNodes up t)
  have hpos : 0 < (allNodes up t).toFinset.card := Finset.card_pos.mpr ⟨t, ht⟩
  have hcard1 : ([t] : List Key).toFinset.card = 1 := by simp
  have hlen1 : ([t] : List Key).length = 1 := rfl
  exact bfsAux_ok_char up t _ [t] [t] (by omega) (bfsInv_init up t) S h

/-- `get_all_upstream_stages` failure: the error is `UnknownStage` and is due
to a key of the upstream closure missing from the upstream map. -/
theorem gaus_err_char {up : List (Key × List Key)} {t : Key} {e : Error}
    (h : get_all_upstream_stages up t = .error e) :
    e = .UnknownStage ∧ ∃ k, ReachUp up t k ∧ alookup up k = none :=
  bfsAux_err up t _ [t] [t] e (bfsInv_init up t) h

/-- `get_all_upstream_stages` fails (necessarily with `UnknownStage`) exactly
when some key of the upstream closure is missing from the upstream map. -/
theorem gaus_err_iff (up : List (Key × List Key)) (t : Key) :
    get_all_upstream_stages up t = .error .UnknownStage ↔
      ∃ k, ReachUp up t k ∧ alookup up k = none := by
  constructor
  · intro h
    exact (gaus_err_char h).2
  · rintro ⟨k, hreach, hnone⟩
    rcases hres : get_all_upstream_stages up t with e | S
    · rw [(gaus_err_char hres).1]
    · obtain ⟨_, _, hsome⟩ := gaus_ok_char hres
      have := hsome k hreach
      rw [hnone] at this
      simp at this

/-! ### Counting occurrences (edge multiplicity) -/

/-- Occurrence count of a key in a list. -/
def kcount (a : Key) : List Key → Nat
  | [] => 0
  | b :: l => (if b = a then 1 else 0) + kcount a l

theorem kcount_append (a : Key) (l l' : List Key) :
    kcount a (l ++ l') = kcount a l + kcount a l' := by
  induction l with
  | nil => simp [kcount]
  | cons b l ih => simp [kcount, ih]; omega

theorem kcount_eq_zero_of_not_mem {a : Key} {l : List Key} (h : a ∉ l) :
    kcount a l = 0 := by
  induction l with
  | nil => rfl
  | cons b l ih =>
    have hb : ¬ b = a := fun he => h (by rw [← he]; exact List.mem_cons_self _ _)
    have hl : a ∉ l := fun he => h (List.mem_cons_of_mem _ he)
    simp [kcount, hb, ih hl]

theorem mem_of_kcount_pos {a : Key} {l : List Key} (h : 0 < kcount a l) : a ∈ l := by
  by_contra hn
  rw [kcount_eq_zero_of_not_mem hn] at h
  exact absurd h (by omega)

/-! ### Structural well-formedness of built pipelines -/

/-- More `alookup` helpers for single-binding appends. -/
theorem alookup_append_single_ne {α : Type} (m : List (Key × α)) {id q : Key} (v : α)
    (h : q ≠ id) : alookup (m ++ [(id, v)]) q = alookup m q := by
  rcases hq : alookup m q with _ | w
  · rw [alookup_append_right _ hq]
    have hi : ¬ id = q := fun hh => h hh.symm
    simp [alookup, hi]
  · exact alookup_append_left hq

theorem alookup_append_single_self {α : Type} (m : List (Key × α)) {id : Key} (v : α)
    (h : alookup m id = none) : alookup (m ++ [(id, v)]) id = some v := by
  rw [alookup_append_right _ h]
  simp [alookup]

theorem tryEmplace_of_none {α : Type} {m : List (Key × α)} {k : Key} (v : α)
    (h : alookup m k = none) : tryEmplace m k v = m ++ [(k, v)] := by
  unfold tryEmplace
  simp [h]

/-- The structural invariant of every reachable pipeline state: the four maps
share one key set, edge multiplicity is consistent, `in_degree` is the
upstream arity, all edge endpoints are registered, and every upstream edge
points to a strictly earlier-registered stage (the source of acyclicity). -/
structure WF (p : PState) : Prop where
  dom_dn : ∀ k, (alookup p.stages k).isSome = (alookup p.downstream_edges k).isSome
  dom_up : ∀ k, (alookup p.stages k).isSome = (alookup p.upstream_edges k).isSome
  dom_ind : ∀ k, (alookup p.stages k).isSome = (alookup p.in_degree k).isSome
  edge : ∀ k u, kcount u (upList p.upstream_edges k) = kcount k (dnList p.downstream_edges u)
  indeg : ∀ k n, alookup p.in_degree k = some n →
    n = ((upList p.upstream_edges k).length : Int)
  up_reg : ∀ k l u, alookup p.upstream_edges k = some l → u ∈ l →
    (alookup p.stages u).isSome
  dn_reg : ∀ k l d, alookup p.downstream_edges k = some l → d ∈ l →
    (alookup p.stages d).isSome
  ranked : ∀ k l u, alookup p.upstream_edges k = some l → u ∈ l →
    keyIdx p.stages u < keyIdx p.stages k

theorem wf_empty : WF emptyP := by
  refine ⟨?_, ?_, ?_, ?_, ?_, ?_, ?_, ?_⟩ <;>
    simp [emptyP, alookup, upList, dnList, kcount]

/-- An unregistered key occurs in no upstream list. -/
theorem unreg_not_mem_upList {p : PState} (hwf : WF p) {id : Key}
    (h : alookup p.stages id = none) (k : Key) : id ∉ upList p.upstream_edges k := by
  intro hm
  unfold upList at hm
  rcases hk : alookup p.upstream_edges k with _ | l
  · rw [hk] at hm; simp at hm
  · rw [hk] at hm
    have := hwf.up_reg k l id hk hm
    rw [h] at this
    simp at this

/-- An unregistered key occurs in no downstream list. -/
theorem unreg_not_mem_dnList {p : PState} (hwf : WF p) {id : Key}
    (h : alookup p.stages id = none) (k : Key) : id ∉ dnList p.downstream_edges k := by
  intro hm
  unfold dnList at hm
  rcases hk : alookup p.downstream_edges k with _ | l
  · rw [hk] at hm; simp at hm
  · rw [hk] at hm
    have := hwf.dn_reg k l id hk hm
    rw [h] at this
    simp at this

theorem not_isSome_eq_none {α : Type} {o : Option α} (h : ¬ o.isSome = true) : o = none := by
  cases o with
  | none => rfl
  | some v => simp at h

theorem not_isNone_isSome {α : Type} {o : Option α} (h : ¬ o.isNone = true) :
    o.isSome = true := by
  cases o with
  | none => simp at h
  | some v => rfl

theorem alookup_updAt' {α : Type} (m : List (Key × α)) (k : Key) (f : α → α) (q : Key) :
    alookup (updAt m k f) q = if q = k then (alookup m k).map f else alookup m q := by
  by_cases h : q = k
  · subst h
    rw [alookup_updAt_self, if_pos rfl]
  · rw [alookup_updAt_ne _ _ _ h, if_neg h]

theorem upList_eq {up : List (Key × List Key)} {k : Key} {l : List Key}
    (h : alookup up k = some l) : upList up k = l := by
  unfold upList
  rw [h]
  rfl

theorem upList_none {up : List (Key × List Key)} {k : Key}
    (h : alookup up k = none) : upList up k = [] := by
  unfold upList
  rw [h]
  rfl

theorem dnList_eq {dn : List (Key × List Key)} {k : Key} {l : List Key}
    (h : alookup dn k = some l) : dnList dn k = l := by
  unfold dnList
  rw [h]
  rfl

theorem dnList_none {dn : List (Key × List Key)} {k : Key}
    (h : alookup dn k = none) : dnList dn k = [] := by
  unfold dnList
  rw [h]
  rfl

/-- Success conditions of the source constructor. -/
theorem add_stage0_ok_conditions {p : PState} {id : Key} {outTy : Ty}
    {f : Unit → Except Unit Val} {port : Port} {p' : PState}
    (h : add_stage0 p id outTy f = (.ok port, p')) : alookup p.stages id = none := by
  unfold add_stage0 at h
  split at h
  · simp at h
  · rename_i hdup
    exact not_isSome_eq_none hdup

/-- Full success behaviour of the source constructor: the returned port, the
new registry binding, the fresh empty adjacency entries, the zero in-degree,
and the frame on every other key. -/
theorem add_stage0_spec {p : PState} {id : Key} {outTy : Ty} {f : Unit → Except Unit Val}
    (hwf : WF p) (hdup : alookup p.stages id = none) :
    (add_stage0 p id outTy f).1 = .ok ⟨outTy, id⟩ ∧
    (add_stage0 p id outTy f).2.stages = p.stages ++ [(id, .stage0 f)] ∧
    alookup (add_stage0 p id outTy f).2.stages id = some (.stage0 f) ∧
    (∀ q, q ≠ id → alookup (add_stage0 p id outTy f).2.stages q = alookup p.stages q) ∧
    alookup (add_stage0 p id outTy f).2.upstream_edges id = some [] ∧
    (∀ q, q ≠ id →
      alookup (add_stage0 p id outTy f).2.upstream_edges q = alookup p.upstream_edges q) ∧
    alookup (add_stage0 p id outTy f).2.downstream_edges id = some [] ∧
    (∀ q, q ≠ id →
      alookup (add_stage0 p id outTy f).2.downstream_edges q = alookup p.downstream_edges q) ∧
    alookup (add_stage0 p id outTy f).2.in_degree id = some 0 ∧
    (∀ q, q ≠ id → alookup (add_stage0 p id outTy f).2.in_degree q = alookup p.in_degree q) ∧
    (add_stage0 p id outTy f).2.stage_results = p.stage_results := by
  have hnot : ¬ (alookup p.stages id).isSome = true := by simp [hdup]
  have hupnone : alookup p.upstream_edges id = none := by
    have hd := hwf.dom_up id
    rw [hdup] at hd
    exact not_isSome_eq_none (by rw [← hd]; simp)
  have hdnnone : alookup p.downstream_edges id = none := by
    have hd := hwf.dom_dn id
    rw [hdup] at hd
    exact not_isSome_eq_none (by rw [← hd]; simp)
  have hindnone : alookup p.in_degree id = none := by
    have hd := hwf.dom_ind id
    rw [hdup] at hd
    exact not_isSome_eq_none (by rw [← hd]; simp)
  unfold add_stage0
  rw [if_neg hnot]
  rw [tryEmplace_of_none _ hdup, tryEmplace_of_none _ hupnone,
    tryEmplace_of_none _ hdnnone, tryEmplace_of_none _ hindnone]
  refine ⟨rfl, rfl, ?_, ?_, ?_, ?_, ?_, ?_, ?_, ?_, rfl⟩
  · exact alookup_append_single_self _ _ hdup
  · intro q hq
    exact alookup_append_single_ne _ _ hq
  · exact alookup_append_single_self _ _ hupnone
  · intro q hq
    exact alookup_append_single_ne _ _ hq
  · exact alookup_append_single_self _ _ hdnnone
  · intro q hq
    exact alookup_append_single_ne _ _ hq
  · exact alookup_append_single_self _ _ hindnone
  · intro q hq
    exact alookup_append_single_ne _ _ hq

/-- The source constructor preserves structural well-formedness. -/
theorem wf_add_stage0 {p : PState} {id : Key} {outTy : Ty} {f : Unit → Except Unit Val}
    {port : Port} {p' : PState}
    (hwf : WF p) (h : add_stage0 p id outTy f = (.ok port, p')) : WF p' := by
  have hdup := add_stage0_ok_conditions h
  obtain ⟨h1, hst, hsid, hsne, huid, hune, hdid, hdne, hiid, hine, hres⟩ :=
    @add_stage0_spec p id outTy f hwf hdup
  have hp' : p' = (add_stage0 p id outTy f).2 := by rw [h]
  subst hp'
  have hstid : (alookup (add_stage0 p id outTy f).2.stages id).isSome = true := by
    rw [hsid]; rfl
  have hstne : ∀ q, q ≠ id →
      (alookup (add_stage0 p id outTy f).2.stages q).isSome = (alookup p.stages q).isSome := by
    intro q hq
    rw [hsne q hq]
  refine ⟨?_, ?_, ?_, ?_, ?_, ?_, ?_, ?_⟩
  · intro k
    by_cases hk : k = id
    · subst hk
      rw [hsid, hdid]
      rfl
    · rw [hsne k hk, hdne k hk, hwf.dom_dn k]
  · intro k
    by_cases hk : k = id
    · subst hk
      rw [hsid, huid]
      rfl
    · rw [hsne k hk, hune k hk, hwf.dom_up k]
  · intro k
    by_cases hk : k = id
    · subst hk
      rw [hsid, hiid]
      rfl
    · rw [hsne k hk, hine k hk, hwf.dom_ind k]
  · intro k u
    by_cases hk : k = id
    · subst hk
      rw [upList_eq huid]
      by_cases hu : u = k
      · rw [hu, dnList_eq hdid]
      · have hdl : dnList (add_stage0 p k outTy f).2.downstream_edges u
            = dnList p.downstream_edges u := by
          unfold dnList
          rw [hdne u hu]
        rw [hdl, kcount_eq_zero_of_not_mem (unreg_not_mem_dnList hwf hdup u)]
        rfl
    · have hul : upList (add_stage0 p id outTy f).2.upstream_edges k
          = upList p.upstream_edges k := by
        unfold upList
        rw [hune k hk]
      rw [hul]
      by_cases hu : u = id
      · subst hu
        rw [dnList_eq hdid,
          kcount_eq_zero_of_not_mem (unreg_not_mem_upList hwf hdup k)]
        rfl
      · have hdl : dnList (add_stage0 p id outTy f).2.downstream_edges u
            = dnList p.downstream_edges u := by
          unfold dnList
          rw [hdne u hu]
        rw [hdl]
        exact hwf.edge k u
  · intro k n hn
    by_cases hk : k = id
    · subst hk
      rw [hiid] at hn
      injection hn with hn
      rw [upList_eq huid, ← hn]
      rfl
    · rw [hine k hk] at hn
      have hul : upList (add_stage0 p id outTy f).2.upstream_edges k
          = upList p.upstream_edges k := by
        unfold upList
        rw [hune k hk]
      rw [hul]
      exact hwf.indeg k n hn
  · intro k l u hl hu
    by_cases hk : k = id
    · subst hk
      rw [huid] at hl
      injection hl with hl
      subst hl
      simp at hu
    · rw [hune k hk] at hl
      have := hwf.up_reg k l u hl hu
      by_cases hq : u = id
      · rw [hq]
        exact hstid
      · rw [hstne u hq]
        exact this
  · intro k l d hl hd
    by_cases hk : k = id
    · subst hk
      rw [hdid] at hl
      injection hl with hl
      subst hl
      simp at hd
    · rw [hdne k hk] at hl
      have := hwf.dn_reg k l d hl hd
      by_cases hq : d = id
      · rw [hq]
        exact hstid
      · rw [hstne d hq]
        exact this
  · intro k l u hl hu
    by_cases hk : k = id
    · subst hk
      rw [huid] at hl
      injection hl with hl
      subst hl
      simp at hu
    · rw [hune k hk] at hl
      have hr := hwf.ranked k l u hl hu
      have hks : (alookup p.stages k).isSome := by
        rw [hwf.dom_up k, hl]
        rfl
      have hus : (alookup p.stages u).isSome := hwf.up_reg k l u hl hu
      rw [hst, keyIdx_append_left _ hks, keyIdx_append_left _ hus]
      exact hr

theorem isSome_not_isNone {α : Type} {o : Option α} (h : o.isSome = true) :
    ¬ o.isNone = true := by
  cases o with
  | none => simp at h
  | some v => simp

theorem alookup_eq_some_dnList {dn : List (Key × List Key)} {k : Key}
    (h : (alookup dn k).isSome = true) : alookup dn k = some (dnList dn k) := by
  unfold dnList
  rcases hk : alookup dn k with _ | l
  · rw [hk] at h; simp at h
  · rfl

theorem kcount_single (a b : Key) : kcount a [b] = if b = a then 1 else 0 := by
  simp [kcount]

/-- Success conditions of the unary constructor. -/
theorem add_stage1_ok_conditions {p : PState} {id : Key} {outTy : Ty}
    {f : Val → Except Unit Val} {up : Port} {port : Port} {p' : PState}
    (h : add_stage1 p id outTy f up = (.ok port, p')) :
    alookup p.stages id = none ∧ (alookup p.stages up.id).isSome = true := by
  unfold add_stage1 at h
  split at h
  · simp at h
  · rename_i hdup
    split at h
    · simp at h
    · rename_i hup
      exact ⟨not_isSome_eq_none hdup, not_isNone_isSome hup⟩

/-- Full success behaviour of the unary constructor: returned port, registry
binding with the declared input type, upstream list `[upstream.id]`, the
reverse edge appended to `downstream_edges[upstream.id]`, in-degree one, and
the frame on every other key. -/
theorem add_stage1_spec {p : PState} {id : Key} {outTy : Ty} {f : Val → Except Unit Val}
    {up : Port} (hwf : WF p) (hdup : alookup p.stages id = none)
    (hup : (alookup p.stages up.id).isSome = true) :
    (add_stage1 p id outTy f up).1 = .ok ⟨outTy, id⟩ ∧
    (add_stage1 p id outTy f up).2.stages = p.stages ++ [(id, .stage1 up.ty up.id f)] ∧
    alookup (add_stage1 p id outTy f up).2.stages id = some (.stage1 up.ty up.id f) ∧
    (∀ q, q ≠ id → alookup (add_stage1 p id outTy f up).2.stages q = alookup p.stages q) ∧
    alookup (add_stage1 p id outTy f up).2.upstream_edges id = some [up.id] ∧
    (∀ q, q ≠ id →
      alookup (add_stage1 p id outTy f up).2.upstream_edges q = alookup p.upstream_edges q) ∧
    alookup (add_stage1 p id outTy f up).2.downstream_edges id = some [] ∧
    alookup (add_stage1 p id outTy f up).2.downstream_edges up.id
      = some (dnList p.downstream_edges up.id ++ [id]) ∧
    (∀ q, q ≠ id → q ≠ up.id →
      alookup (add_stage1 p id outTy f up).2.downstream_edges q
        = alookup p.downstream_edges q) ∧
    alookup (add_stage1 p id outTy f up).2.in_degree id = some 1 ∧
    (∀ q, q ≠ id → alookup (add_stage1 p id outTy f up).2.in_degree q = alookup p.in_degree q) ∧
    (add_stage1 p id outTy f up).2.stage_results = p.stage_results := by
  have hne : id ≠ up.id := by
    intro he
    rw [← he, hdup] at hup
    simp at hup
  have hne' : up.id ≠ id := fun he => hne he.symm
  have hnot1 : ¬ (alookup p.stages id).isSome = true := by simp [hdup]
  have hnot2 : ¬ (alookup p.stages up.id).isNone = true := isSome_not_isNone hup
  have hupnone : alookup p.upstream_edges id = none := by
    have hd := hwf.dom_up id
    rw [hdup] at hd
    exact not_isSome_eq_none (by rw [← hd]; simp)
  have hdnnone : alookup p.downstream_edges id = none := by
    have hd := hwf.dom_dn id
    rw [hdup] at hd
    exact not_isSome_eq_none (by rw [← hd]; simp)
  have hindnone : alookup p.in_degree id = none := by
    have hd := hwf.dom_ind id
    rw [hdup] at hd
    exact not_isSome_eq_none (by rw [← hd]; simp)
  have hdnup : alookup p.downstream_edges up.id = some (dnList p.downstream_edges up.id) := by
    apply alookup_eq_some_dnList
    rw [← hwf.dom_dn up.id]
    exact hup
  unfold add_stage1
  rw [if_neg hnot1, if_neg hnot2]
  rw [tryEmplace_of_none _ hdup, tryEmplace_of_none _ hupnone,
    tryEmplace_of_none _ hdnnone, tryEmplace_of_none _ hindnone]
  refine ⟨rfl, rfl, ?_, ?_, ?_, ?_, ?_, ?_, ?_, ?_, ?_, rfl⟩
  · exact alookup_append_single_self _ _ hdup
  · intro q hq
    exact alookup_append_single_ne _ _ hq
  · rw [alookup_updAt_self, alookup_append_single_self _ _ hupnone]
    rfl
  · intro q hq
    rw [alookup_updAt_ne _ _ _ hq, alookup_append_single_ne _ _ hq]
  · rw [alookup_updAt_ne _ _ _ hne, alookup_append_single_self _ _ hdnnone]
  · rw [alookup_updAt_self, alookup_append_single_ne _ _ hne', hdnup]
    rfl
  · intro q hq hq'
    rw [alookup_updAt_ne _ _ _ hq', alookup_append_single_ne _ _ hq]
  · rw [alookup_updAt_self, alookup_append_single_self _ _ hindnone]
    rfl
  · intro q hq
    rw [alookup_updAt_ne _ _ _ hq, alookup_append_single_ne _ _ hq]

/-- The unary constructor preserves structural well-formedness. -/
theorem wf_add_stage1 {p : PState} {id : Key} {outTy : Ty} {f : Val → Except Unit Val}
    {up : Port} {port : Port} {p' : PState}
    (hwf : WF p) (h : add_stage1 p id outTy f up = (.ok port, p')) : WF p' := by
  obtain ⟨hdup, hup⟩ := add_stage1_ok_conditions h
  obtain ⟨h1, hst, hsid, hsne, huid, hune, hdid, hdup2, hdne, hiid, hine, hres⟩ :=
    @add_stage1_spec p id outTy f up hwf hdup hup
  have hp' : p' = (add_stage1 p id outTy f up).2 := by rw [h]
  subst hp'
  have hne : id ≠ up.id := by
    intro he
    rw [← he, hdup] at hup
    simp at hup
  have hstid : (alookup (add_stage1 p id outTy f up).2.stages id).isSome = true := by
    rw [hsid]; rfl
  have hstne : ∀ q, q ≠ id →
      (alookup (add_stage1 p id outTy f up).2.stages q).isSome
        = (alookup p.stages q).isSome := by
    intro q hq
    rw [hsne q hq]
  have hmono : ∀ q, (alookup p.stages q).isSome = true →
      (alookup (add_stage1 p id outTy f up).2.stages q).isSome = true := by
    intro q hq
    by_cases hqi : q = id
    · rw [hqi]; exact hstid
    · rw [hstne q hqi]; exact hq
  have hupreg : id ∉ dnList p.downstream_edges up.id := unreg_not_mem_dnList hwf hdup up.id
  refine ⟨?_, ?_, ?_, ?_, ?_, ?_, ?_, ?_⟩
  · intro k
    by_cases hk : k = id
    · rw [hk, hsid, hdid]
      rfl
    · by_cases hk2 : k = up.id
      · rw [hk2, hsne up.id (by rw [← hk2]; exact hk), hdup2]
        rw [hup]
        rfl
      · rw [hsne k hk, hdne k hk hk2, hwf.dom_dn k]
  · intro k
    by_cases hk : k = id
    · rw [hk, hsid, huid]
      rfl
    · rw [hsne k hk, hune k hk, hwf.dom_up k]
  · intro k
    by_cases hk : k = id
    · rw [hk, hsid, hiid]
      rfl
    · rw [hsne k hk, hine k hk, hwf.dom_ind k]
  · intro k u
    by_cases hk : k = id
    · rw [hk, upList_eq huid]
      by_cases hu : u = id
      · rw [hu, dnList_eq hdid, kcount_single]
        have : ¬ up.id = id := fun he => hne he.symm
        simp [kcount, this]
      · by_cases hu2 : u = up.id
        · rw [hu2, dnList_eq hdup2, kcount_single, kcount_append,
            kcount_eq_zero_of_not_mem hupreg, kcount_single]
          simp
        · have hdl : dnList (add_stage1 p id outTy f up).2.downstream_edges u
              = dnList p.downstream_edges u := by
            unfold dnList
            rw [hdne u hu hu2]
          rw [hdl, kcount_single,
            kcount_eq_zero_of_not_mem (unreg_not_mem_dnList hwf hdup u)]
          have : ¬ up.id = u := fun he => hu2 he.symm
          simp [this]
    · have hul : upList (add_stage1 p id outTy f up).2.upstream_edges k
          = upList p.upstream_edges k := by
        unfold upList
        rw [hune k hk]
      rw [hul]
      by_cases hu : u = id
      · rw [hu, dnList_eq hdid,
          kcount_eq_zero_of_not_mem (unreg_not_mem_upList hwf hdup k)]
        rfl
      · by_cases hu2 : u = up.id
        · have hk' : ¬ id = k := fun he => hk he.symm
          rw [hu2, dnList_eq hdup2, kcount_append, kcount_single, if_neg hk']
          rw [hwf.edge k up.id]
          omega
        · have hdl : dnList (add_stage1 p id outTy f up).2.downstream_edges u
              = dnList p.downstream_edges u := by
            unfold dnList
            rw [hdne u hu hu2]
          rw [hdl]
          exact hwf.edge k u
  · intro k n hn
    by_cases hk : k = id
    · rw [hk] at hn ⊢
      rw [hiid] at hn
      injection hn with hn
      rw [upList_eq huid, ← hn]
      rfl
    · rw [hine k hk] at hn
      have hul : upList (add_stage1 p id outTy f up).2.upstream_edges k
          = upList p.upstream_edges k := by
        unfold upList
        rw [hune k hk]
      rw [hul]
      exact hwf.indeg k n hn
  · intro k l u hl hu
    by_cases hk : k = id
    · rw [hk, huid] at hl
      injection hl with hl
      subst hl
      rcases List.mem_singleton.mp hu with rfl
      exact hmono up.id hup
    · rw [hune k hk] at hl
      exact hmono u (hwf.up_reg k l u hl hu)
  · intro k l d hl hd
    by_cases hk : k = id
    · rw [hk, hdid] at hl
      injection hl with hl
      subst hl
      simp at hd
    · by_cases hk2 : k = up.id
      · rw [hk2, hdup2] at hl
        injection hl with hl
        subst hl
        rcases List.mem_append.mp hd with hd1 | hd2
        · have hdl := @alookup_eq_some_dnList p.downstream_edges up.id
            (by rw [← hwf.dom_dn up.id]; exact hup)
          exact hmono d (hwf.dn_reg up.id _ d hdl hd1)
        · rcases List.mem_singleton.mp hd2 with rfl
          exact hstid
      · rw [hdne k hk hk2] at hl
        exact hmono d (hwf.dn_reg k l d hl hd)
  · intro k l u hl hu
    by_cases hk : k = id
    · rw [hk] at hl ⊢
      rw [huid] at hl
      injection hl with hl
      subst hl
      rcases List.mem_singleton.mp hu with rfl
      rw [hst, keyIdx_append_left _ hup, keyIdx_append_self _ hdup]
      exact keyIdx_lt_length hup
    · rw [hune k hk] at hl
      have hr := hwf.ranked k l u hl hu
      have hks : (alookup p.stages k).isSome := by
        rw [hwf.dom_up k, hl]
        rfl
      have hus : (alookup p.stages u).isSome := hwf.up_reg k l u hl hu
      rw [hst, keyIdx_append_left _ hks, keyIdx_append_left _ hus]
      exact hr

theorem kcount_pair (a b c : Key) :
    kcount a [b, c] = (if b = a then 1 else 0) + (if c = a then 1 else 0) := by
  simp [kcount]

/-- Success conditions of the join constructor. -/
theorem join_ok_conditions {p : PState} {id : Key} {in1 in2 : Port} {port : Port}
    {p' : PState} (h : join p id in1 in2 = (.ok port, p')) :
    alookup p.stages id = none ∧ (alookup p.stages in1.id).isSome = true ∧
      (alookup p.stages in2.id).isSome = true := by
  unfold join at h
  split at h
  · simp at h
  · rename_i hdup
    split at h
    · simp at h
    · rename_i h1
      split at h
      · simp at h
      · rename_i h2
        exact ⟨not_isSome_eq_none hdup, not_isNone_isSome h1, not_isNone_isSome h2⟩

/-- Full success behaviour of the join constructor: returned pair-typed port,
registry binding, upstream list `[in1.id, in2.id]` in declaration order, the
two appended reverse edges (duplicated when the two ports coincide),
in-degree two, and the frame on every other key. -/
theorem join_spec {p : PState} {id : Key} {in1 in2 : Port}
    (hwf : WF p) (hdup : alookup p.stages id = none)
    (h1 : (alookup p.stages in1.id).isSome = true)
    (h2 : (alookup p.stages in2.id).isSome = true) :
    (join p id in1 in2).1 = .ok ⟨.tpair in1.ty in2.ty, id⟩ ∧
    (join p id in1 in2).2.stages
      = p.stages ++ [(id, .joinStage in1.ty in2.ty in1.id in2.id)] ∧
    alookup (join p id in1 in2).2.stages id
      = some (.joinStage in1.ty in2.ty in1.id in2.id) ∧
    (∀ q, q ≠ id → alookup (join p id in1 in2).2.stages q = alookup p.stages q) ∧
    alookup (join p id in1 in2).2.upstream_edges id = some [in1.id, in2.id] ∧
    (∀ q, q ≠ id →
      alookup (join p id in1 in2).2.upstream_edges q = alookup p.upstream_edges q) ∧
    alookup (join p id in1 in2).2.downstream_edges id = some [] ∧
    (in1.id ≠ in2.id →
      alookup (join p id in1 in2).2.downstream_edges in1.id
          = some (dnList p.downstream_edges in1.id ++ [id]) ∧
      alookup (join p id in1 in2).2.downstream_edges in2.id
          = some (dnList p.downstream_edges in2.id ++ [id])) ∧
    (in1.id = in2.id →
      alookup (join p id in1 in2).2.downstream_edges in2.id
          = some (dnList p.downstream_edges in2.id ++ [id, id])) ∧
    (∀ q, q ≠ id → q ≠ in1.id → q ≠ in2.id →
      alookup (join p id in1 in2).2.downstream_edges q = alookup p.downstream_edges q) ∧
    alookup (join p id in1 in2).2.in_degree id = some 2 ∧
    (∀ q, q ≠ id → alookup (join p id in1 in2).2.in_degree q = alookup p.in_degree q) ∧
    (join p id in1 in2).2.stage_results = p.stage_results ∧
    (join p id in1 in2).2.downstream_edges
      = updAt (updAt (p.downstream_edges ++ [(id, [])]) in1.id (fun l => l ++ [id]))
          in2.id (fun l => l ++ [id]) := by
  have hne1 : id ≠ in1.id := by
    intro he
    rw [← he, hdup] at h1
    simp at h1
  have hne2 : id ≠ in2.id := by
    intro he
    rw [← he, hdup] at h2
    simp at h2
  have hne1' : in1.id ≠ id := fun he => hne1 he.symm
  have hne2' : in2.id ≠ id := fun he => hne2 he.symm
  have hnot : ¬ (alookup p.stages id).isSome = true := by simp [hdup]
  have hupnone : alookup p.upstream_edges id = none := by
    have hd := hwf.dom_up id
    rw [hdup] at hd
    exact not_isSome_eq_none (by rw [← hd]; simp)
  have hdnnone : alookup p.downstream_edges id = none := by
    have hd := hwf.dom_dn id
    rw [hdup] at hd
    exact not_isSome_eq_none (by rw [← hd]; simp)
  have hindnone : alookup p.in_degree id = none := by
    have hd := hwf.dom_ind id
    rw [hdup] at hd
    exact not_isSome_eq_none (by rw [← hd]; simp)
  have hdn1 : alookup p.downstream_edges in1.id
      = some (dnList p.downstream_edges in1.id) := by
    apply alookup_eq_some_dnList
    rw [← hwf.dom_dn in1.id]
    exact h1
  have hdn2 : alookup p.downstream_edges in2.id
      = some (dnList p.downstream_edges in2.id) := by
    apply alookup_eq_some_dnList
    rw [← hwf.dom_dn in2.id]
    exact h2
  unfold join
  rw [if_neg hnot, if_neg (isSome_not_isNone h1), if_neg (isSome_not_isNone h2)]
  rw [tryEmplace_of_none _ hdup, tryEmplace_of_none _ hupnone,
    tryEmplace_of_none _ hdnnone, tryEmplace_of_none _ hindnone]
  refine ⟨rfl, rfl, ?_, ?_, ?_, ?_, ?_, ?_, ?_, ?_, ?_, ?_, rfl, rfl⟩
  · exact alookup_append_single_self _ _ hdup
  · intro q hq
    exact alookup_append_single_ne _ _ hq
  · rw [alookup_updAt_self, alookup_append_single_self _ _ hupnone]
    rfl
  · intro q hq
    rw [alookup_updAt_ne _ _ _ hq, alookup_append_single_ne _ _ hq]
  · rw [alookup_updAt_ne _ _ _ hne2, alookup_updAt_ne _ _ _ hne1,
      alookup_append_single_self _ _ hdnnone]
  · intro hneq
    constructor
    · rw [alookup_updAt_ne _ _ _ hneq, alookup_updAt_self,
        alookup_append_single_ne _ _ hne1', hdn1]
      rfl
    · rw [alookup_updAt_self, alookup_updAt_ne _ _ _ (fun he => hneq he.symm),
        alookup_append_single_ne _ _ hne2', hdn2]
      rfl
  · intro heq
    rw [alookup_updAt_self, ← heq, alookup_updAt_self,
      alookup_append_single_ne _ _ hne1', hdn1, heq]
    simp
  · intro q hq hq1 hq2
    rw [alookup_updAt_ne _ _ _ hq2, alookup_updAt_ne _ _ _ hq1,
      alookup_append_single_ne _ _ hq]
  · rw [alookup_updAt_self, alookup_append_single_self _ _ hindnone]
    rfl
  · intro q hq
    rw [alookup_updAt_ne _ _ _ hq, alookup_append_single_ne _ _ hq]

/-- The join constructor preserves structural well-formedness. -/
theorem wf_join {p : PState} {id : Key} {in1 in2 : Port} {port : Port} {p' : PState}
    (hwf : WF p) (h : join p id in1 in2 = (.ok port, p')) : WF p' := by
  obtain ⟨hdup, h1, h2⟩ := join_ok_conditions h
  obtain ⟨hfst, hst, hsid, hsne, huid, hune, hdid, hdne12, hdeq12, hdne, hiid, hine, hres,
      hdnraw⟩ :=
    @join_spec p id in1 in2 hwf hdup h1 h2
  have hp' : p' = (join p id in1 in2).2 := by rw [h]
  subst hp'
  have hne1 : id ≠ in1.id := by
    intro he
    rw [← he, hdup] at h1
    simp at h1
  have hne2 : id ≠ in2.id := by
    intro he
    rw [← he, hdup] at h2
    simp at h2
  have hstid : (alookup (join p id in1 in2).2.stages id).isSome = true := by
    rw [hsid]; rfl
  have hstne : ∀ q, q ≠ id →
      (alookup (join p id in1 in2).2.stages q).isSome = (alookup p.stages q).isSome := by
    intro q hq
    rw [hsne q hq]
  have hmono : ∀ q, (alookup p.stages q).isSome = true →
      (alookup (join p id in1 in2).2.stages q).isSome = true := by
    intro q hq
    by_cases hqi : q = id
    · rw [hqi]; exact hstid
    · rw [hstne q hqi]; exact hq
  -- a uniform description of the new downstream lists
  have hdl : ∀ u, u ≠ id → dnList (join p id in1 in2).2.downstream_edges u
      = dnList p.downstream_edges u
        ++ (if in1.id = u then [id] else [])
        ++ (if in2.id = u then [id] else []) := by
    intro u hu
    by_cases hu2 : in2.id = u
    · by_cases heq : in1.id = in2.id
      · have hu1 : in1.id = u := by rw [heq]; exact hu2
        rw [← hu2, if_pos (show in1.id = in2.id from heq), if_pos rfl,
          dnList_eq (hdeq12 heq)]
        simp
      · have hu1 : ¬ in1.id = u := by
          intro he
          exact heq (by rw [he, ← hu2])
        rw [← hu2] at hu1
        rw [← hu2, if_neg hu1, if_pos rfl, dnList_eq ((hdne12 heq).2)]
        simp
    · by_cases hu1 : in1.id = u
      · have heq : in1.id ≠ in2.id := by
          intro he
          exact hu2 (by rw [← he, hu1])
        have hu2' : ¬ in2.id = in1.id := fun he => hu2 (he.trans hu1)
        rw [← hu1, if_pos rfl, if_neg hu2', dnList_eq ((hdne12 heq).1)]
        simp
      · rw [if_neg hu1, if_neg hu2]
        have hfr : dnList (join p id in1 in2).2.downstream_edges u
            = dnList p.downstream_edges u := by
          unfold dnList
          rw [hdne u hu (fun he => hu1 he.symm) (fun he => hu2 he.symm)]
        rw [hfr]
        simp
  have hne1'' : ¬ in1.id = id := fun he => hne1 he.symm
  have hne2'' : ¬ in2.id = id := fun he => hne2 he.symm
  refine ⟨?_, ?_, ?_, ?_, ?_, ?_, ?_, ?_⟩
  · intro k
    by_cases hk : k = id
    · rw [hk, hsid, hdid]
      rfl
    · rw [hsne k hk]
      have hdk : (alookup (join p id in1 in2).2.downstream_edges k).isSome
          = (alookup p.downstream_edges k).isSome := by
        rw [hdnraw, isSome_updAt, isSome_updAt, alookup_append_single_ne _ _ hk]
      rw [hdk, hwf.dom_dn k]
  · intro k
    by_cases hk : k = id
    · rw [hk, hsid, huid]
      rfl
    · rw [hsne k hk, hune k hk, hwf.dom_up k]
  · intro k
    by_cases hk : k = id
    · rw [hk, hsid, hiid]
      rfl
    · rw [hsne k hk, hine k hk, hwf.dom_ind k]
  · intro k u
    by_cases hk : k = id
    · rw [hk, upList_eq huid]
      by_cases hu : u = id
      · rw [hu, dnList_eq hdid, kcount_pair, if_neg hne1'', if_neg hne2'']
        rfl
      · rw [hdl u hu, kcount_append, kcount_append,
          kcount_eq_zero_of_not_mem (unreg_not_mem_dnList hwf hdup u), kcount_pair]
        have e1 : kcount id (if in1.id = u then [id] else [])
            = if in1.id = u then 1 else 0 := by
          split <;> simp [kcount]
        have e2 : kcount id (if in2.id = u then [id] else [])
            = if in2.id = u then 1 else 0 := by
          split <;> simp [kcount]
        rw [e1, e2]
        omega
    · have hul : upList (join p id in1 in2).2.upstream_edges k
          = upList p.upstream_edges k := by
        unfold upList
        rw [hune k hk]
      rw [hul]
      by_cases hu : u = id
      · rw [hu, dnList_eq hdid,
          kcount_eq_zero_of_not_mem (unreg_not_mem_upList hwf hdup k)]
        rfl
      · have hk' : ¬ id = k := fun he => hk he.symm
        rw [hdl u hu, kcount_append, kcount_append]
        have e1 : kcount k (if in1.id = u then [id] else []) = 0 := by
          split
          · rw [kcount_single, if_neg hk']
          · rfl
        have e2 : kcount k (if in2.id = u then [id] else []) = 0 := by
          split
          · rw [kcount_single, if_neg hk']
          · rfl
        rw [e1, e2, hwf.edge k u]
        omega
  · intro k n hn
    by_cases hk : k = id
    · rw [hk] at hn ⊢
      rw [hiid] at hn
      injection hn with hn
      rw [upList_eq huid, ← hn]
      rfl
    · rw [hine k hk] at hn
      have hul : upList (join p id in1 in2).2.upstream_edges k
          = upList p.upstream_edges k := by
        unfold upList
        rw [hune k hk]
      rw [hul]
      exact hwf.indeg k n hn
  · intro k l u hl hu
    by_cases hk : k = id
    · rw [hk, huid] at hl
      injection hl with hl
      subst hl
      rcases List.mem_cons.mp hu with rfl | hu2
      · exact hmono in1.id h1
      · rcases List.mem_singleton.mp hu2 with rfl
        exact hmono in2.id h2
    · rw [hune k hk] at hl
      exact hmono u (hwf.up_reg k l u hl hu)
  · intro k l d hl hd
    by_cases hk : k = id
    · rw [hk, hdid] at hl
      injection hl with hl
      subst hl
      simp at hd
    · have hlk : dnList (join p id in1 in2).2.downstream_edges k = l := dnList_eq hl
      rw [hdl k hk] at hlk
      rw [← hlk] at hd
      rcases List.mem_append.mp hd with hd1 | hd2
      · rcases List.mem_append.mp hd1 with hd0 | hdi1
        · rcases hpk : alookup p.downstream_edges k with _ | l0
          · unfold dnList at hd0
            rw [hpk] at hd0
            simp at hd0
          · have hl0 : dnList p.downstream_edges k = l0 := dnList_eq hpk
            rw [hl0] at hd0
            exact hmono d (hwf.dn_reg k l0 d hpk hd0)
        · by_cases hc : in1.id = k
          · rw [if_pos hc] at hdi1
            rcases List.mem_singleton.mp hdi1 with rfl
            exact hstid
          · rw [if_neg hc] at hdi1
            simp at hdi1
      · by_cases hc : in2.id = k
        · rw [if_pos hc] at hd2
          rcases List.mem_singleton.mp hd2 with rfl
          exact hstid
        · rw [if_neg hc] at hd2
          simp at hd2
  · intro k l u hl hu
    by_cases hk : k = id
    · rw [hk] at hl ⊢
      rw [huid] at hl
      injection hl with hl
      subst hl
      rcases List.mem_cons.mp hu with rfl | hu2
      · rw [hst, keyIdx_append_left _ h1, keyIdx_append_self _ hdup]
        exact keyIdx_lt_length h1
      · rcases List.mem_singleton.mp hu2 with rfl
        rw [hst, keyIdx_append_left _ h2, keyIdx_append_self _ hdup]
        exact keyIdx_lt_length h2
    · rw [hune k hk] at hl
      have hr := hwf.ranked k l u hl hu
      have hks : (alookup p.stages k).isSome := by
        rw [hwf.dom_up k, hl]
        rfl
      have hus : (alookup p.stages u).isSome := hwf.up_reg k l u hl hu
      rw [hst, keyIdx_append_left _ hks, keyIdx_append_left _ hus]
      exact hr

/-- Well-formedness is preserved by every successful builder call (the file
helpers reduce to the two `add_stage` forms). -/
theorem wf_applyCall {p : PState} {c : BuilderCall} {port : Port} {p' : PState}
    (hwf : WF p) (h : applyCall p c = (.ok port, p')) : WF p' := by
  cases c with
  | src id outTy f => exact wf_add_stage0 hwf h
  | unary id outTy f up => exact wf_add_stage1 hwf h
  | joinC id in1 in2 => exact wf_join hwf h
  | writeFile id fsW bi =>
    simp only [applyCall] at h
    unfold write_bytes_to_file at h
    split at h
    · simp at h
    · exact wf_add_stage1 hwf h
  | readFile id fsR after =>
    simp only [applyCall] at h
    unfold read_bytes_from_file at h
    split at h
    · simp at h
    · cases after with
      | some ap => exact wf_add_stage1 hwf h
      | none => exact wf_add_stage0 hwf h

/-- Every state reachable through the builder API is well-formed. -/
theorem built_wf {p : PState} (h : Built p) : WF p := by
  induction h with
  | empty => exact wf_empty
  | step hb hc ih => exact wf_applyCall ih hc

/-! ### Failure framing of the builders (no mutation on error paths) -/

theorem add_stage0_err {p : PState} {id : Key} {outTy : Ty} {f : Unit → Except Unit Val}
    {e : Error} {p' : PState} (h : add_stage0 p id outTy f = (.error e, p')) : p' = p := by
  unfold add_stage0 at h
  split at h
  · injection h with h1 h2
    exact h2.symm
  · simp at h

theorem add_stage1_err {p : PState} {id : Key} {outTy : Ty} {f : Val → Except Unit Val}
    {up : Port} {e : Error} {p' : PState}
    (h : add_stage1 p id outTy f up = (.error e, p')) : p' = p := by
  unfold add_stage1 at h
  split at h
  · injection h with h1 h2
    exact h2.symm
  · split at h
    · injection h with h1 h2
      exact h2.symm
    · simp at h

theorem join_err {p : PState} {id : Key} {in1 in2 : Port} {e : Error} {p' : PState}
    (h : join p id in1 in2 = (.error e, p')) : p' = p := by
  unfold join at h
  split at h
  · injection h with h1 h2
    exact h2.symm
  · split at h
    · injection h with h1 h2
      exact h2.symm
    · split at h
      · injection h with h1 h2
        exact h2.symm
      · simp at h

theorem write_bytes_to_file_err {p : PState} {id : Key}
    {fsW : List Nat → Except Unit Unit} {bi : Port} {e : Error} {p' : PState}
    (h : write_bytes_to_file p id fsW bi = (.error e, p')) : p' = p := by
  unfold write_bytes_to_file at h
  split at h
  · injection h with h1 h2
    exact h2.symm
  · exact add_stage1_err h

theorem read_bytes_from_file_err {p : PState} {id : Key}
    {fsR : Except Unit (List Nat)} {after : Option Port} {e : Error} {p' : PState}
    (h : read_bytes_from_file p id fsR after = (.error e, p')) : p' = p := by
  unfold read_bytes_from_file at h
  split at h
  · injection h with h1 h2
    exact h2.symm
  · cases after with
    | some ap => exact add_stage1_err h
    | none => exact add_stage0_err h

/-! ### Scheduler loop: basic lemmas -/

theorem kcount_pos_of_mem {a : Key} {l : List Key} (h : a ∈ l) : 0 < kcount a l := by
  induction l with
  | nil => simp at h
  | cons b l ih =>
    rcases List.mem_cons.mp h with rfl | hm
    · simp [kcount]
    · have := ih hm
      simp only [kcount]
      split <;> omega

/-- The per-run decrements released by one stage never increase the loop
variant `|ready| + Σ max(0, indeg)`. -/
theorem pd_measure (S : List Key) :
    ∀ ds (indeg : List (Key × Int)) (ready : List Key),
      (processDownstream S indeg ready ds).2.length
          + isum (processDownstream S indeg ready ds).1
        ≤ ready.length + isum indeg := by
  intro ds
  induction ds with
  | nil =>
    intro indeg ready
    simp [processDownstream]
  | cons d ds ih =>
    intro indeg ready
    by_cases hd : d ∈ S
    · simp only [processDownstream, if_pos hd]
      rcases hlk : alookup indeg d with _ | x
      · have hnp : alookup (updAt indeg d (fun x => x - 1)) d = none := by
          rw [alookup_updAt_self, hlk]
          rfl
        rw [hnp]
        have hle := isum_updAt_le indeg d
        have := ih (updAt indeg d (fun x => x - 1)) ready
        simp only [hnp] at this
        calc (processDownstream S (updAt indeg d (fun x => x - 1)) ready ds).2.length
              + isum (processDownstream S (updAt indeg d (fun x => x - 1)) ready ds).1
            ≤ ready.length + isum (updAt indeg d (fun x => x - 1)) := this
          _ ≤ ready.length + isum indeg := by omega
      · have hupd : alookup (updAt indeg d (fun x => x - 1)) d = some (x - 1) := by
          rw [alookup_updAt_self, hlk]
          rfl
        rw [hupd]
        by_cases hx : x - 1 = 0
        · rw [if_pos (by rw [hx])]
          have hx1 : x = 1 := by omega
          have hsub := isum_updAt_sub hlk (by omega)
          have := ih (updAt indeg d (fun x => x - 1)) (ready ++ [d])
          simp only [List.length_append, List.length_cons, List.length_nil] at this ⊢
          omega
        · rw [if_neg (by intro hc; injection hc with hc; exact hx hc)]
          have hle := isum_updAt_le indeg d
          have := ih (updAt indeg d (fun x => x - 1)) ready
          omega
    · simp only [processDownstream, if_neg hd]
      exact ih indeg ready

/-- Keys released into the ready queue stay inside the run set. -/
theorem pd_ready_sub (S : List Key) :
    ∀ ds (indeg : List (Key × Int)) (ready : List Key),
      (∀ k ∈ ready, k ∈ S) →
      ∀ k ∈ (processDownstream S indeg ready ds).2, k ∈ S := by
  intro ds
  induction ds with
  | nil =>
    intro indeg ready h
    simpa [processDownstream] using h
  | cons d ds ih =>
    intro indeg ready h
    by_cases hd : d ∈ S
    · simp only [processDownstream, if_pos hd]
      split
      · refine ih _ _ ?_
        intro k hk
        rcases List.mem_append.mp hk with hk1 | hk2
        · exact h k hk1
        · rcases List.mem_singleton.mp hk2 with rfl
          exact hd
      · exact ih _ _ h
    · simp only [processDownstream, if_neg hd]
      exact ih _ _ h

/-- Every key the scheduler loop ever stores lies in the run set. -/
theorem runLoop_store_sub (stages : List (Key × StageDef)) (dn : List (Key × List Key))
    (S : List Key) :
    ∀ fuel store (indeg : List (Key × Int)) ready,
      (∀ k ∈ ready, k ∈ S) →
      (∀ k, (alookup store k).isSome = true → k ∈ S) →
      ∀ k, (alookup (runLoopF stages dn S fuel store indeg ready).1 k).isSome = true →
        k ∈ S := by
  intro fuel
  induction fuel with
  | zero =>
    intro store indeg ready hr hs k hk
    cases ready with
    | nil => exact hs k hk
    | cons a l => exact hs k hk
  | succ fuel ih =>
    intro store indeg ready hr hs k hk
    cases ready with
    | nil => exact hs k hk
    | cons curr rest =>
      rcases hcur : alookup stages curr with _ | stg
      · simp only [runLoopF, hcur] at hk
        exact hs k hk
      · rcases hex : execStage store stg with he | v
        · simp only [runLoopF, hcur, hex] at hk
          exact hs k hk
        · simp only [runLoopF, hcur, hex] at hk
          refine ih _ _ _ ?_ ?_ k hk
          · exact pd_ready_sub S _ _ _ (fun q hq => hr q (List.mem_cons_of_mem _ hq))
          · intro q hq
            rcases (isSome_setk store curr v q).mp hq with rfl | hq2
            · exact hr q (List.mem_cons_self _ _)
            · exact hs q hq2

/-! ### Kahn invariants for the scheduler loop -/

/-- Number of upstream dependencies of `k` (with multiplicity) not yet present
in the result store. -/
def pending (up : List (Key × List Key)) (store : List (Key × Val)) (k : Key) : Nat :=
  ((upList up k).filter (fun u => (alookup store u).isNone)).length

theorem pending_empty (up : List (Key × List Key)) (k : Key) :
    pending up [] k = (upList up k).length := by
  unfold pending
  rw [List.filter_eq_self.mpr]
  intro a _
  rfl

theorem filter_length_setk {store : List (Key × Val)} {curr : Key} {v : Val}
    (h : alookup store curr = none) :
    ∀ l : List Key,
      (l.filter (fun u => (alookup store u).isNone)).length
        = (l.filter (fun u => (alookup (setk store curr v) u).isNone)).length
            + kcount curr l := by
  intro l
  induction l with
  | nil => rfl
  | cons u l ih =>
    by_cases hu : u = curr
    · subst hu
      have h1 : (alookup store u).isNone = true := by rw [h]; rfl
      have h2 : (alookup (setk store u v) u).isNone = false := by
        rw [alookup_setk_self]
        rfl
      have e1 : ((u :: l).filter (fun x => (alookup store x).isNone)).length
          = (l.filter (fun x => (alookup store x).isNone)).length + 1 := by
        rw [List.filter_cons, h1]
        simp
      have e2 : ((u :: l).filter (fun x => (alookup (setk store u v) x).isNone)).length
          = (l.filter (fun x => (alookup (setk store u v) x).isNone)).length := by
        rw [List.filter_cons, h2]
        simp
      have e3 : kcount u (u :: l) = kcount u l + 1 := by
        show (if u = u then 1 else 0) + kcount u l = kcount u l + 1
        rw [if_pos rfl]
        omega
      rw [e1, e2, e3]
      omega
    · have he : alookup (setk store curr v) u = alookup store u :=
        alookup_setk_ne _ _ _ hu
      have hcu : ¬ u = curr := hu
      simp only [List.filter_cons, he, kcount, if_neg hcu]
      split
      · simp only [List.length_cons]
        omega
      · omega

theorem pending_setk {up : List (Key × List Key)} {store : List (Key × Val)}
    {curr : Key} {v : Val} (h : alookup store curr = none) (k : Key) :
    pending up store k
      = pending up (setk store curr v) k + kcount curr (upList up k) :=
  filter_length_setk h (upList up k)

theorem pending_zero_deps {up : List (Key × List Key)} {store : List (Key × Val)}
    {k : Key} (h : pending up store k = 0) :
    ∀ u ∈ upList up k, (alookup store u).isSome = true := by
  intro u hu
  by_contra hns
  have hnone : alookup store u = none := not_isSome_eq_none hns
  have hmem : u ∈ (upList up k).filter (fun u => (alookup store u).isNone) := by
    rw [List.mem_filter]
    exact ⟨hu, by rw [hnone]; rfl⟩
  unfold pending at h
  rw [List.length_eq_zero] at h
  rw [h] at hmem
  simp at hmem

theorem pending_pos_ex {up : List (Key × List Key)} {store : List (Key × Val)}
    {k : Key} (h : pending up store k ≠ 0) :
    ∃ u, u ∈ upList up k ∧ alookup store u = none := by
  unfold pending at h
  rcases hf : (upList up k).filter (fun u => (alookup store u).isNone) with _ | ⟨u, l⟩
  · rw [hf] at h
    simp at h
  · have hmem : u ∈ (upList up k).filter (fun u => (alookup store u).isNone) := by
      rw [hf]
      exact List.mem_cons_self _ _
    rw [List.mem_filter] at hmem
    refine ⟨u, hmem.1, ?_⟩
    have := hmem.2
    cases ho : alookup store u with
    | none => rfl
    | some w => rw [ho] at this; simp at this

/-- The static facts about the pipeline graph the scheduler relies on:
edge-multiplicity consistency, closure of the run set under upstream edges,
and rank acyclicity. -/
structure SInv (st : List (Key × StageDef)) (dn up : List (Key × List Key))
    (S : List Key) : Prop where
  edge : ∀ k u, kcount u (upList up k) = kcount k (dnList dn u)
  closed : ∀ k, k ∈ S → ∀ u ∈ upList up k, u ∈ S
  ranked : ∀ k l u, alookup up k = some l → u ∈ l → keyIdx st u < keyIdx st k

/-- The scheduler loop invariant over (store, per-run in-degrees, ready
queue). -/
structure LInv (up : List (Key × List Key)) (S : List Key)
    (store : List (Key × Val)) (indeg : List (Key × Int)) (ready : List Key) :
    Prop where
  rdNodup : ready.Nodup
  rdMem : ∀ k ∈ ready, k ∈ S ∧ alookup store k = none
  stMem : ∀ k, (alookup store k).isSome = true → k ∈ S
  dom : ∀ k, (alookup indeg k).isSome = true ↔ k ∈ S
  deg : ∀ k ∈ S, alookup store k = none →
    alookup indeg k = some ((pending up store k : Nat) : Int)
  rdy : ∀ k ∈ S, alookup store k = none → (k ∈ ready ↔ pending up store k = 0)
  depsDone : ∀ k, (alookup store k).isSome = true →
    ∀ u ∈ upList up k, (alookup store u).isSome = true

/-- The intermediate invariant while one completed stage's downstream list
`ds` is still being processed: each not-yet-done key owes `kcount k ds`
further decrements. -/
structure FInv (up : List (Key × List Key)) (S : List Key)
    (store' : List (Key × Val)) (ds : List Key) (indeg : List (Key × Int))
    (ready : List Key) : Prop where
  rdNodup : ready.Nodup
  rdMem : ∀ k ∈ ready, k ∈ S ∧ alookup store' k = none
  dom : ∀ k, (alookup indeg k).isSome = true ↔ k ∈ S
  deg : ∀ k ∈ S, alookup store' k = none →
    alookup indeg k = some ((pending up store' k + kcount k ds : Nat) : Int)
  rdy : ∀ k ∈ S, alookup store' k = none →
    (k ∈ ready ↔ pending up store' k + kcount k ds = 0)

theorem kcount_cons_ne {d k : Key} (h : d ≠ k) (l : List Key) :
    kcount k (d :: l) = kcount k l := by
  show (if d = k then 1 else 0) + kcount k l = kcount k l
  rw [if_neg h]
  omega

theorem kcount_cons_self (d : Key) (l : List Key) :
    kcount d (d :: l) = kcount d l + 1 := by
  show (if d = d then 1 else 0) + kcount d l = kcount d l + 1
  rw [if_pos rfl]
  omega

/-- Processing a completed stage's downstream list preserves the fold
invariant, discharging the owed decrements one occurrence at a time. -/
theorem pd_finv {up : List (Key × List Key)} {S : List Key}
    {store' : List (Key × Val)} :
    ∀ ds (indeg : List (Key × Int)) (ready : List Key),
      (∀ d ∈ ds, d ∈ S → alookup store' d = none) →
      FInv up S store' ds indeg ready →
      FInv up S store' [] (processDownstream S indeg ready ds).1
        (processDownstream S indeg ready ds).2 := by
  intro ds
  induction ds with
  | nil =>
    intro indeg ready hds hF
    exact hF
  | cons d ds ih =>
    intro indeg ready hds hF
    by_cases hd : d ∈ S
    · have hdnone : alookup store' d = none := hds d (List.mem_cons_self _ _) hd
      have hdeg := hF.deg d hd hdnone
      have hupd : alookup (updAt indeg d (fun x => x - 1)) d
          = some ((pending up store' d + kcount d ds : Nat) : Int) := by
        rw [alookup_updAt_self, hdeg]
        simp only [Option.map_some']
        congr 1
        rw [kcount_cons_self]
        push_cast
        omega
      have hcond : (alookup (updAt indeg d (fun x => x - 1)) d = some 0)
          ↔ (pending up store' d + kcount d ds = 0) := by
        rw [hupd]
        constructor
        · intro hc
          injection hc with hc
          omega
        · intro hc
          rw [hc]
          rfl
      have hdnr0 : d ∉ ready := by
        intro hmem
        have := (hF.rdy d hd hdnone).mp hmem
        rw [kcount_cons_self] at this
        omega
      simp only [processDownstream, if_pos hd]
      by_cases hp : pending up store' d + kcount d ds = 0
      · rw [if_pos (hcond.mpr hp)]
        refine ih _ _ (fun q hq hqS => hds q (List.mem_cons_of_mem _ hq) hqS) ?_
        refine ⟨?_, ?_, ?_, ?_, ?_⟩
        · simp [List.nodup_append, hF.rdNodup, hdnr0]
        · intro k hk
          rcases List.mem_append.mp hk with hk1 | hk2
          · exact hF.rdMem k hk1
          · rcases List.mem_singleton.mp hk2 with rfl
            exact ⟨hd, hdnone⟩
        · intro k
          rw [isSome_updAt]
          exact hF.dom k
        · intro k hkS hknone
          by_cases hkd : k = d
          · rw [hkd]
            exact hupd
          · rw [alookup_updAt_ne _ _ _ hkd, hF.deg k hkS hknone,
              kcount_cons_ne (fun he => hkd he.symm) ds]
        · intro k hkS hknone
          by_cases hkd : k = d
          · constructor
            · intro _
              rw [hkd]
              exact hp
            · intro _
              rw [hkd]
              exact List.mem_append_right _ (by simp)
          · have hmemiff : k ∈ ready ++ [d] ↔ k ∈ ready := by
              simp [List.mem_append, hkd]
            rw [hmemiff, hF.rdy k hkS hknone,
              kcount_cons_ne (fun he => hkd he.symm) ds]
      · rw [if_neg (fun hc => hp (hcond.mp hc))]
        refine ih _ _ (fun q hq hqS => hds q (List.mem_cons_of_mem _ hq) hqS) ?_
        refine ⟨hF.rdNodup, hF.rdMem, ?_, ?_, ?_⟩
        · intro k
          rw [isSome_updAt]
          exact hF.dom k
        · intro k hkS hknone
          by_cases hkd : k = d
          · rw [hkd]
            exact hupd
          · rw [alookup_updAt_ne _ _ _ hkd, hF.deg k hkS hknone,
              kcount_cons_ne (fun he => hkd he.symm) ds]
        · intro k hkS hknone
          by_cases hkd : k = d
          · constructor
            · intro hmem
              rw [hkd] at hmem
              exact absurd hmem hdnr0
            · intro hc
              rw [hkd] at hc
              exact absurd hc hp
          · rw [hF.rdy k hkS hknone, kcount_cons_ne (fun he => hkd he.symm) ds]
    · simp only [processDownstream, if_neg hd]
      refine ih _ _ (fun q hq hqS => hds q (List.mem_cons_of_mem _ hq) hqS) ?_
      refine ⟨hF.rdNodup, hF.rdMem, hF.dom, ?_, ?_⟩
      · intro k hkS hknone
        have hkd : d ≠ k := fun he => hd (by rw [he]; exact hkS)
        rw [hF.deg k hkS hknone, kcount_cons_ne hkd ds]
      · intro k hkS hknone
        have hkd : d ≠ k := fun he => hd (by rw [he]; exact hkS)
        rw [hF.rdy k hkS hknone, kcount_cons_ne hkd ds]

/-- One scheduler iteration — execute the ready stage `curr`, publish its
value, process its downstream edges — preserves the loop invariant. -/
theorem linv_step {st : List (Key × StageDef)} {dn up : List (Key × List Key)}
    {S : List Key} (hS : SInv st dn up S)
    {store : List (Key × Val)} {indeg : List (Key × Int)} {curr : Key}
    {rest : List Key} {v : Val}
    (hL : LInv up S store indeg (curr :: rest)) :
    LInv up S (setk store curr v)
      (processDownstream S indeg rest (dnList dn curr)).1
      (processDownstream S indeg rest (dnList dn curr)).2 := by
  obtain ⟨hcurS, hcurnone⟩ := hL.rdMem curr (List.mem_cons_self _ _)
  have hpend0 : pending up store curr = 0 :=
    (hL.rdy curr hcurS hcurnone).mp (List.mem_cons_self _ _)
  have hnodup := hL.rdNodup
  have hcnr : curr ∉ rest := (List.nodup_cons.mp hnodup).1
  have hst_self : alookup (setk store curr v) curr = some v := alookup_setk_self _ _ _
  have hst_ne : ∀ q, q ≠ curr → alookup (setk store curr v) q = alookup store q :=
    fun q hq => alookup_setk_ne _ _ _ hq
  have hds : ∀ d ∈ dnList dn curr, d ∈ S → alookup (setk store curr v) d = none := by
    intro d hdm hdS
    rcases hq : alookup (setk store curr v) d with _ | w
    · rfl
    · exfalso
      by_cases hdc : d = curr
      · rw [hdc] at hdm
        have hkc := kcount_pos_of_mem hdm
        rw [← hS.edge curr curr] at hkc
        have hmem := mem_of_kcount_pos hkc
        rcases hup : alookup up curr with _ | l
        · rw [upList_none hup] at hmem
          simp at hmem
        · rw [upList_eq hup] at hmem
          exact absurd (hS.ranked curr l curr hup hmem) (lt_irrefl _)
      · have hdone : (alookup store d).isSome = true := by
          have he := hst_ne d hdc
          rw [hq] at he
          rw [← he]
          rfl
        have hkc := kcount_pos_of_mem hdm
        rw [← hS.edge d curr] at hkc
        have hmem := mem_of_kcount_pos hkc
        have := hL.depsDone d hdone curr hmem
        rw [hcurnone] at this
        simp at this
  have hkey : ∀ k, k ∈ S → alookup (setk store curr v) k = none →
      alookup store k = none ∧ k ≠ curr := by
    intro k hkS hknone
    have hkc : k ≠ curr := by
      intro he
      rw [he, hst_self] at hknone
      simp at hknone
    rw [hst_ne k hkc] at hknone
    exact ⟨hknone, hkc⟩
  have hpk : ∀ k, alookup store k = none → pending up store k
      = pending up (setk store curr v) k + kcount k (dnList dn curr) := by
    intro k _
    have h2 := @pending_setk up store curr v hcurnone k
    rw [hS.edge k curr] at h2
    exact h2
  have hFentry : FInv up S (setk store curr v) (dnList dn curr) indeg rest := by
    refine ⟨(List.nodup_cons.mp hnodup).2, ?_, hL.dom, ?_, ?_⟩
    · intro k hk
      obtain ⟨hkS, hknone⟩ := hL.rdMem k (List.mem_cons_of_mem _ hk)
      have hkc : k ≠ curr := fun he => hcnr (by rw [← he]; exact hk)
      exact ⟨hkS, by rw [hst_ne k hkc]; exact hknone⟩
    · intro k hkS hknone
      obtain ⟨hkold, hkc⟩ := hkey k hkS hknone
      rw [hL.deg k hkS hkold, hpk k hkold]
    · intro k hkS hknone
      obtain ⟨hkold, hkc⟩ := hkey k hkS hknone
      have hmem : k ∈ rest ↔ k ∈ curr :: rest := by
        simp [List.mem_cons, hkc]
      rw [hmem, hL.rdy k hkS hkold, hpk k hkold]
  have hF' := pd_finv (dnList dn curr) indeg rest hds hFentry
  refine ⟨hF'.rdNodup, hF'.rdMem, ?_, hF'.dom, ?_, ?_, ?_⟩
  · intro k hk
    rcases (isSome_setk store curr v k).mp hk with rfl | hk2
    · exact hcurS
    · exact hL.stMem k hk2
  · intro k hkS hknone
    have := hF'.deg k hkS hknone
    simpa [kcount] using this
  · intro k hkS hknone
    have := hF'.rdy k hkS hknone
    simpa [kcount] using this
  · intro k hk
    rcases (isSome_setk store curr v k).mp hk with hkc | hk2
    · intro u hu
      rw [hkc] at hu
      exact (isSome_setk store curr v u).mpr (Or.inr (pending_zero_deps hpend0 u hu))
    · intro u hu
      exact (isSome_setk store curr v u).mpr (Or.inr (hL.depsDone k hk2 u hu))

/-- Main loop theorem: from a state satisfying the loop invariant, with fuel
dominating the loop variant, a non-failing run of the worker loop ends with
the store holding exactly the run set (Kahn completeness via the registration
rank: an undone stage would have an undone strictly-earlier upstream
stage). -/
theorem runLoop_complete {st : List (Key × StageDef)} {dn up : List (Key × List Key)}
    {S : List Key} (hS : SInv st dn up S) :
    ∀ fuel (store : List (Key × Val)) (indeg : List (Key × Int)) (ready : List Key),
      LInv up S store indeg ready →
      ready.length + isum indeg + 1 ≤ fuel →
      ∀ finalStore, runLoopF st dn S fuel store indeg ready = (finalStore, false) →
        (∀ k ∈ S, (alookup finalStore k).isSome = true) ∧
        (∀ k, (alookup finalStore k).isSome = true → k ∈ S) := by
  intro fuel
  induction fuel with
  | zero =>
    intro store indeg ready _ hμ
    exact absurd hμ (by omega)
  | succ fuel ih =>
    intro store indeg ready hL hμ finalStore hrun
    cases ready with
    | nil =>
      simp only [runLoopF] at hrun
      injection hrun with h1 h2
      subst h1
      refine ⟨?_, hL.stMem⟩
      have hstrong : ∀ n k, keyIdx st k < n → k ∈ S →
          (alookup store k).isSome = true := by
        intro n
        induction n with
        | zero =>
          intro k hk
          exact absurd hk (by omega)
        | succ n ihn =>
          intro k hkn hkS
          by_contra hnd
          have hknone : alookup store k = none := not_isSome_eq_none hnd
          have hpne : pending up store k ≠ 0 := by
            intro h0
            have := (hL.rdy k hkS hknone).mpr h0
            simp at this
          obtain ⟨u, hu, hunone⟩ := pending_pos_ex hpne
          have huS : u ∈ S := hS.closed k hkS u hu
          rcases hupk : alookup up k with _ | l
          · rw [upList_none hupk] at hu
            simp at hu
          · rw [upList_eq hupk] at hu
            have hrank := hS.ranked k l u hupk hu
            have := ihn u (by omega) huS
            rw [hunone] at this
            simp at this
      intro k hkS
      exact hstrong (keyIdx st k + 1) k (by omega) hkS
    | cons curr rest =>
      rcases hcur : alookup st curr with _ | stg
      · simp only [runLoopF, hcur] at hrun
        injection hrun with h1 h2
        simp at h2
      · rcases hex : execStage store stg with he | v
        · simp only [runLoopF, hcur, hex] at hrun
          injection hrun with h1 h2
          simp at h2
        · simp only [runLoopF, hcur, hex] at hrun
          have hL' := linv_step hS hL (v := v)
          have hm := pd_measure S (dnList dn curr) indeg rest
          refine ih _ _ _ hL' ?_ finalStore hrun
          simp only [List.length_cons] at hμ
          omega

/-! ### Invariant initialization at the start of a run -/

theorem alookup_initIndeg (ind : List (Key × Int)) :
    ∀ {S : List Key}, S.Nodup → ∀ k,
      alookup (initIndeg ind S) k = if k ∈ S then alookup ind k else none := by
  intro S
  induction S with
  | nil =>
    intro _ k
    simp [initIndeg, alookup]
  | cons a S' ih =>
    intro hnd k
    have hna := (List.nodup_cons.mp hnd).1
    have hnd' := (List.nodup_cons.mp hnd).2
    rcases ha : alookup ind a with _ | v
    · have hred : initIndeg ind (a :: S') = initIndeg ind S' := by
        simp [initIndeg, List.filterMap_cons, ha]
      rw [hred, ih hnd' k]
      by_cases hk : k = a
      · rw [hk]
        rw [if_neg hna, if_pos (List.mem_cons_self _ _), ha]
      · by_cases hk2 : k ∈ S'
        · rw [if_pos hk2, if_pos (List.mem_cons_of_mem _ hk2)]
        · rw [if_neg hk2, if_neg (by simp [List.mem_cons, hk, hk2])]
    · have hred : initIndeg ind (a :: S') = (a, v) :: initIndeg ind S' := by
        simp [initIndeg, List.filterMap_cons, ha]
      rw [hred]
      by_cases hk : k = a
      · rw [hk]
        simp [alookup, ha]
      · have hak : ¬ a = k := fun he => hk he.symm
        have hhead : alookup ((a, v) :: initIndeg ind S') k
            = alookup (initIndeg ind S') k := by
          simp [alookup, hak]
        rw [hhead, ih hnd' k]
        by_cases hk2 : k ∈ S'
        · rw [if_pos hk2, if_pos (List.mem_cons_of_mem _ hk2)]
        · rw [if_neg hk2, if_neg (by simp [List.mem_cons, hk, hk2])]

theorem mem_initReady {indeg0 : List (Key × Int)} {S : List Key} (k : Key) :
    k ∈ initReady indeg0 S ↔ k ∈ S ∧ alookup indeg0 k = some 0 := by
  unfold initReady
  rw [List.mem_filter]
  simp

/-- The loop invariant holds at the entry of the worker loop. -/
theorem linv_init {p : PState} (hwf : WF p) {tgt : Key} {S : List Key}
    (hbfs : get_all_upstream_stages p.upstream_edges tgt = .ok S) :
    LInv p.upstream_edges S [] (initIndeg p.in_degree S)
      (initReady (initIndeg p.in_degree S) S) := by
  obtain ⟨hnd, hmemS, hsome⟩ := gaus_ok_char hbfs
  have hind : ∀ k ∈ S, alookup p.in_degree k
      = some (((upList p.upstream_edges k).length : Nat) : Int) := by
    intro k hk
    have h1 : (alookup p.upstream_edges k).isSome = true := hsome k ((hmemS k).mp hk)
    have h2 : (alookup p.stages k).isSome = true := by
      rw [hwf.dom_up k]
      exact h1
    have h3 : (alookup p.in_degree k).isSome = true := by
      rw [← hwf.dom_ind k]
      exact h2
    rcases hv : alookup p.in_degree k with _ | n
    · rw [hv] at h3
      simp at h3
    · rw [hwf.indeg k n hv]
  have hii : ∀ k, alookup (initIndeg p.in_degree S) k
      = if k ∈ S then alookup p.in_degree k else none := alookup_initIndeg _ hnd
  refine ⟨?_, ?_, ?_, ?_, ?_, ?_, ?_⟩
  · exact List.Nodup.filter _ hnd
  · intro k hk
    obtain ⟨hkS, _⟩ := (mem_initReady k).mp hk
    exact ⟨hkS, rfl⟩
  · intro k hk
    simp [alookup] at hk
  · intro k
    rw [hii k]
    by_cases hk : k ∈ S
    · rw [if_pos hk]
      constructor
      · intro _
        exact hk
      · intro _
        rw [hind k hk]
        rfl
    · rw [if_neg hk]
      simp [hk]
  · intro k hk _
    rw [hii k, if_pos hk, hind k hk]
    congr 2
    rw [pending_empty]
  · intro k hk _
    rw [mem_initReady k]
    constructor
    · rintro ⟨_, hz⟩
      rw [hii k, if_pos hk, hind k hk] at hz
      injection hz with hz
      rw [pending_empty]
      omega
    · intro hz
      refine ⟨hk, ?_⟩
      rw [hii k, if_pos hk, hind k hk]
      rw [pending_empty] at hz
      rw [hz]
      rfl
  · intro k hk
    simp [alookup] at hk

/-- The static scheduler facts hold for the upstream closure of any target in
a well-formed pipeline. -/
theorem sinv_init {p : PState} (hwf : WF p) {tgt : Key} {S : List Key}
    (hbfs : get_all_upstream_stages p.upstream_edges tgt = .ok S) :
    SInv p.stages p.downstream_edges p.upstream_edges S := by
  obtain ⟨hnd, hmemS, hsome⟩ := gaus_ok_char hbfs
  refine ⟨hwf.edge, ?_, hwf.ranked⟩
  intro k hk u hu
  rcases hup : alookup p.upstream_edges k with _ | l
  · rw [upList_none hup] at hu
    simp at hu
  · rw [upList_eq hup] at hu
    have hreach : ReachUp p.upstream_edges tgt k := (hmemS k).mp hk
    have hru : ReachUp p.upstream_edges tgt u :=
      Relation.ReflTransGen.tail hreach ⟨l, hup, hu⟩
    exact (hmemS u).mpr hru

/-- Unfolding of `runP` past a valid thread count. -/
theorem runP_spec (p : PState) (tgt : Key) (ty : Ty) (n hc : Nat)
    (h : ¬ (n = 0 ∨ (hc ≠ 0 ∧ n > hc))) :
    runP p tgt ty n hc =
      (match get_all_upstream_stages p.upstream_edges tgt with
       | .error e => (.error e, { p with stage_results := [] })
       | .ok S =>
         if (runLoopResult p S).2 then
           (.error .RuntimeError, { p with stage_results := (runLoopResult p S).1 })
         else
           match alookup (runLoopResult p S).1 tgt with
           | none =>
             (.error .UnknownStage, { p with stage_results := (runLoopResult p S).1 })
           | some v =>
             if tyOf v = ty then
               (.ok v, { p with stage_results := (runLoopResult p S).1 })
             else
               (.error .TypeMismatch,
                 { p with stage_results := (runLoopResult p S).1 })) := by
  unfold runP
  rw [if_neg h]

/-- An unregistered target key makes the upstream-closure computation fail
with `UnknownStage` immediately. -/
theorem gaus_missing_target {up : List (Key × List Key)} {t : Key}
    (h : alookup up t = none) :
    get_all_upstream_stages up t = .error .UnknownStage := by
  unfold get_all_upstream_stages
  show bfsAux up ((allNodes up t).length + 1) [t] (t :: []) = .error .UnknownStage
  simp only [bfsAux, h]

/-- `runP` on a closure-computation failure. -/
theorem runP_bfs_err {p : PState} {tgt : Key} {ty : Ty} {n hc : Nat} {e : Error}
    (h : ¬ (n = 0 ∨ (hc ≠ 0 ∧ n > hc)))
    (hbfs : get_all_upstream_stages p.upstream_edges tgt = .error e) :
    runP p tgt ty n hc = (.error e, { p with stage_results := [] }) := by
  rw [runP_spec p tgt ty n hc h]
  simp only [hbfs]

/-- `runP` when some stage execution failed: the catch-all at the stage
boundary makes the run return the `RuntimeError` sentinel. -/
theorem runP_loop_fail {p : PState} {tgt : Key} {ty : Ty} {n hc : Nat} {S : List Key}
    (h : ¬ (n = 0 ∨ (hc ≠ 0 ∧ n > hc)))
    (hbfs : get_all_upstream_stages p.upstream_edges tgt = .ok S)
    (hr2 : (runLoopResult p S).2 = true) :
    runP p tgt ty n hc
      = (.error .RuntimeError, { p with stage_results := (runLoopResult p S).1 }) := by
  rw [runP_spec p tgt ty n hc h]
  simp only [hbfs]
  rw [if_pos hr2]

/-- `runP` when the loop succeeded but the target is absent from the store. -/
theorem runP_fetch_none {p : PState} {tgt : Key} {ty : Ty} {n hc : Nat} {S : List Key}
    (h : ¬ (n = 0 ∨ (hc ≠ 0 ∧ n > hc)))
    (hbfs : get_all_upstream_stages p.upstream_edges tgt = .ok S)
    (hr2 : (runLoopResult p S).2 = false)
    (hlk : alookup (runLoopResult p S).1 tgt = none) :
    runP p tgt ty n hc
      = (.error .UnknownStage, { p with stage_results := (runLoopResult p S).1 }) := by
  rw [runP_spec p tgt ty n hc h]
  simp only [hbfs]
  rw [if_neg (by simp [hr2])]
  simp only [hlk]

/-- `runP` when the loop succeeded and the target has a stored value: the
final `any_cast<T>` decides between the value and `TypeMismatch`. -/
theorem runP_fetch_some {p : PState} {tgt : Key} {ty : Ty} {n hc : Nat} {S : List Key}
    {v : Val}
    (h : ¬ (n = 0 ∨ (hc ≠ 0 ∧ n > hc)))
    (hbfs : get_all_upstream_stages p.upstream_edges tgt = .ok S)
    (hr2 : (runLoopResult p S).2 = false)
    (hlk : alookup (runLoopResult p S).1 tgt = some v) :
    runP p tgt ty n hc
      = (if tyOf v = ty then (.ok v, { p with stage_results := (runLoopResult p S).1 })
         else (.error .TypeMismatch, { p with stage_results := (runLoopResult p S).1 })) := by
  rw [runP_spec p tgt ty n hc h]
  simp only [hbfs]
  rw [if_neg (by simp [hr2])]
  simp only [hlk]

/-! ### Concrete pipelines used as witnesses -/

/-- A source computation returning the int 5 (the test-suite's `src`). -/
def srcFn : Unit → Except Unit Val := fun _ => .ok (.vint 5)

/-- The test-suite's `incr`. -/
def incrFn : Val → Except Unit Val := fun v =>
  match v with
  | .vint n => .ok (.vint (n + 1))
  | _ => .error ()

/-- A user computation that always throws. -/
def boomFn : Unit → Except Unit Val := fun _ => .error ()

/-- Single int source `src`. -/
def pOneI : PState := (add_stage0 emptyP "src" .tint srcFn).2

/-- `src → incr` chain. -/
def pTwo : PState := (add_stage1 pOneI "incr" .tint incrFn ⟨.tint, "src"⟩).2

/-- `src` (producing an int) consumed by a stage whose declared input type is
`string` — the cross-pipeline / hand-built-port scenario in which the input
reification of `bad` fails at run time. -/
def pBadTy : PState := (add_stage1 pOneI "bad" .tstr (fun v => .ok v) ⟨.tstr, "src"⟩).2

/-- A single always-throwing source. -/
def pThrowI : PState := (add_stage0 emptyP "boom" .tint boomFn).2

/-- The pipeline state after one successful run of `pOneI`: its result store
holds the previous run's value for `src`. -/
def pRan : PState := (runP pOneI "src" .tint 1 0).2

theorem built_pOneI : Built pOneI :=
  Built.step Built.empty (c := .src "src" .tint srcFn) rfl

theorem built_pTwo : Built pTwo :=
  Built.step built_pOneI (c := .unary "incr" .tint incrFn ⟨.tint, "src"⟩) rfl

theorem built_pBadTy : Built pBadTy :=
  Built.step built_pOneI (c := .unary "bad" .tstr (fun v => .ok v) ⟨.tstr, "src"⟩) rfl

/-- A two-node upstream map (`a` depends on `b`) for closure witnesses. -/
def upAB : List (Key × List Key) := [("a", ["b"]), ("b", [])]

/-! ### Claim theorems -/

/-- C4: the upstream-closure computation returns exactly the set of keys
reachable from the target (inclusive) along upstream edges, and fails —
always with `UnknownStage` — exactly when some key of that closure has no
entry in the upstream map. -/
theorem claim_C4 (up : List (Key × List Key)) (t : Key) :
    (∀ S, get_all_upstream_stages up t = .ok S → ∀ k, k ∈ S ↔ ReachUp up t k) ∧
    (get_all_upstream_stages up t = .error .UnknownStage ↔
      ∃ k, ReachUp up t k ∧ alookup up k = none) ∧
    (∀ e, get_all_upstream_stages up t = .error e → e = .UnknownStage) := by
  refine ⟨?_, gaus_err_iff up t, ?_⟩
  · intro S h
    exact (gaus_ok_char h).2.1
  · intro e h
    exact (gaus_err_char h).1

/-- C4 witness: the closure of `a` in the map `a ↦ [b], b ↦ []` contains
`b`. -/
theorem claim_C4_witness : "b" ∈ ["a", "b"] ↔ ReachUp upAB "a" "b" :=
  (claim_C4 upAB "a").1 ["a", "b"] rfl "b"

/-- C6: every failing builder call — the three stage constructors and the two
file-helper constructors — returns the pipeline state exactly as it was
before the call. -/
theorem claim_C6 (p : PState) (c : BuilderCall) (e : Error) (p' : PState)
    (h : applyCall p c = (.error e, p')) : p' = p := by
  cases c with
  | src id outTy f => exact add_stage0_err h
  | unary id outTy f up => exact add_stage1_err h
  | joinC id in1 in2 => exact join_err h
  | writeFile id fsW bi => exact write_bytes_to_file_err h
  | readFile id fsR after => exact read_bytes_from_file_err h

/-- C6 witness: a unary `add_stage` against an unregistered upstream key fails
with `UnknownStage` and leaves the empty pipeline unchanged. -/
theorem claim_C6_witness : emptyP = emptyP :=
  claim_C6 emptyP (.unary "a" .tint incrFn ⟨.tint, "zzz"⟩) .UnknownStage emptyP rfl

/-- C7: after any sequence of successful builder calls, the four maps share
one key set, edge multiplicity is consistent in both directions, and every
in-degree equals the length of the upstream list. -/
theorem claim_C7 (p : PState) (hb : Built p) :
    (∀ k, (alookup p.stages k).isSome = (alookup p.downstream_edges k).isSome ∧
      (alookup p.stages k).isSome = (alookup p.upstream_edges k).isSome ∧
      (alookup p.stages k).isSome = (alookup p.in_degree k).isSome) ∧
    (∀ k u, kcount u (upList p.upstream_edges k)
      = kcount k (dnList p.downstream_edges u)) ∧
    (∀ k n, alookup p.in_degree k = some n →
      n = ((upList p.upstream_edges k).length : Int)) := by
  have hwf := built_wf hb
  exact ⟨fun k => ⟨hwf.dom_dn k, hwf.dom_up k, hwf.dom_ind k⟩, hwf.edge, hwf.indeg⟩

/-- C7 witness: in the one-source pipeline the in-degree of `src` is the
length of its (empty) upstream list. -/
theorem claim_C7_witness :
    (0 : Int) = ((upList pOneI.upstream_edges "src").length : Int) :=
  (claim_C7 pOneI built_pOneI).2.2 "src" 0 rfl

/-- C8: a run fails with `InvalidThreadCount` exactly when the worker count is
zero, or the hardware parallelism is queryable (non-zero) and the worker
count exceeds it; and in that case the run returns before doing anything
else, leaving the state (including the result store) untouched. -/
theorem claim_C8 (p : PState) (tgt : Key) (ty : Ty) (n hc : Nat) :
    ((runP p tgt ty n hc).1 = .error .InvalidThreadCount ↔
      (n = 0 ∨ (hc ≠ 0 ∧ n > hc))) ∧
    ((n = 0 ∨ (hc ≠ 0 ∧ n > hc)) → runP p tgt ty n hc = (.error .InvalidThreadCount, p)) := by
  by_cases hcnd : n = 0 ∨ (hc ≠ 0 ∧ n > hc)
  · have heq : runP p tgt ty n hc = (.error .InvalidThreadCount, p) := by
      unfold runP
      rw [if_pos hcnd]
    refine ⟨⟨fun _ => hcnd, fun _ => ?_⟩, fun _ => heq⟩
    rw [heq]
  · refine ⟨⟨?_, fun hx => absurd hx hcnd⟩, fun hx => absurd hx hcnd⟩
    intro hivc
    exfalso
    rcases hbfs : get_all_upstream_stages p.upstream_edges tgt with e | S
    · rw [runP_bfs_err hcnd hbfs] at hivc
      simp only [] at hivc
      injection hivc with h2
      have he := (gaus_err_char hbfs).1
      rw [he] at h2
      exact Error.noConfusion h2
    · rcases hr2 : (runLoopResult p S).2 with _ | _
      · rcases hlk : alookup (runLoopResult p S).1 tgt with _ | v
        · rw [runP_fetch_none hcnd hbfs hr2 hlk] at hivc
          simp at hivc
        · rw [runP_fetch_some hcnd hbfs hr2 hlk] at hivc
          by_cases hty : tyOf v = ty
          · rw [if_pos hty] at hivc
            simp at hivc
          · rw [if_neg hty] at hivc
            simp at hivc
      · rw [runP_loop_fail hcnd hbfs hr2] at hivc
        simp at hivc

/-- C8 witness: running with zero workers fails with `InvalidThreadCount` and
leaves the pipeline untouched. -/
theorem claim_C8_witness :
    runP pOneI "src" Ty.tint 0 7 = (.error .InvalidThreadCount, pOneI) :=
  (claim_C8 pOneI "src" Ty.tint 0 7).2 (Or.inl rfl)

/-- C9: with a valid worker count and a computed run set, the run returns the
error `RuntimeError` exactly when some stage execution failed — every
user-computation failure is caught at the stage boundary inside the worker
loop (the `failed` flag) and converted to `RuntimeError`; no other outcome
produces `RuntimeError`. -/
theorem claim_C9 (p : PState) (tgt : Key) (ty : Ty) (n hc : Nat) (S : List Key)
    (hn : ¬ (n = 0 ∨ (hc ≠ 0 ∧ n > hc)))
    (hbfs : get_all_upstream_stages p.upstream_edges tgt = .ok S) :
    ((runLoopResult p S).2 = true →
      runP p tgt ty n hc
        = (.error .RuntimeError, { p with stage_results := (runLoopResult p S).1 })) ∧
    ((runP p tgt ty n hc).1 = .error .RuntimeError → (runLoopResult p S).2 = true) := by
  refine ⟨fun hfail => runP_loop_fail hn hbfs hfail, ?_⟩
  intro hrt
  rcases hr2 : (runLoopResult p S).2 with _ | _
  · exfalso
    rcases hlk : alookup (runLoopResult p S).1 tgt with _ | v
    · rw [runP_fetch_none hn hbfs hr2 hlk] at hrt
      simp at hrt
    · rw [runP_fetch_some hn hbfs hr2 hlk] at hrt
      by_cases hty : tyOf v = ty
      · rw [if_pos hty] at hrt
        simp at hrt
      · rw [if_neg hty] at hrt
        simp at hrt
  · rfl

/-- C9 witness: a throwing source makes the run return `RuntimeError`. -/
theorem claim_C9_witness :
    runP pThrowI "boom" Ty.tint 1 0
      = (.error .RuntimeError,
          { pThrowI with stage_results := (runLoopResult pThrowI ["boom"]).1 }) :=
  (claim_C9 pThrowI "boom" Ty.tint 1 0 ["boom"] (by decide) rfl).1 rfl

/-- The structural invariant only concerns the four graph maps, so it is
indifferent to the contents of the result store.  In particular every
post-run state (a graph of a built pipeline with whatever the last run left
in the store) is well-formed. -/
theorem wf_store_irrel {p : PState} (hwf : WF p) (rs : List (Key × Val)) :
    WF { p with stage_results := rs } :=
  ⟨hwf.dom_dn, hwf.dom_up, hwf.dom_ind, hwf.edge, hwf.indeg, hwf.up_reg,
    hwf.dn_reg, hwf.ranked⟩

/-- `pRan` — the state after a successful run of the one-source pipeline,
holding that run's value for `src` in its store — is well-formed. -/
theorem wf_pRan : WF pRan := by
  have h1 : WF pOneI := built_wf built_pOneI
  have h2 : pRan = { pOneI with stage_results := [("src", Val.vint 5)] } := rfl
  rw [h2]
  exact wf_store_irrel h1 _

/-- C10: for any well-formed pipeline graph carrying an arbitrary — possibly
non-empty — result store (e.g. the state left by a previous run), a run with
a valid thread count but an unregistered target returns `UnknownStage` with
the result store left empty: the previous run's stored values are discarded
even though this run fails, so run errors are not atomic with respect to the
result store. -/
theorem claim_C10 (p : PState) (tgt : Key) (ty : Ty) (n hc : Nat)
    (hwf : WF p) (hnreg : alookup p.stages tgt = none)
    (hn : ¬ (n = 0 ∨ (hc ≠ 0 ∧ n > hc))) :
    runP p tgt ty n hc = (.error .UnknownStage, { p with stage_results := [] }) := by
  have hup : alookup p.upstream_edges tgt = none := by
    have hd := hwf.dom_up tgt
    rw [hnreg] at hd
    exact not_isSome_eq_none (by rw [← hd]; simp)
  exact runP_bfs_err hn (gaus_missing_target hup)

/-- C10 witness: `pRan` still holds the previous run's value for `src`
(its store is non-empty); running it on the unregistered key `zzz` returns
`UnknownStage` and leaves the store empty — the previous result is gone. -/
theorem claim_C10_witness :
    pRan.stage_results ≠ [] ∧
      runP pRan "zzz" Ty.tint 1 0
        = (.error .UnknownStage, { pRan with stage_results := [] }) :=
  ⟨by decide, claim_C10 pRan "zzz" Ty.tint 1 0 wf_pRan rfl (by decide)⟩

theorem runLoopResult_eq (p : PState) (S : List Key) :
    runLoopResult p S
      = runLoopF p.stages p.downstream_edges S
          ((initReady (initIndeg p.in_degree S) S).length
            + isum (initIndeg p.in_degree S) + 1)
          [] (initIndeg p.in_degree S) (initReady (initIndeg p.in_degree S) S) := rfl

/-- C1 counterexample: in `pBadTy` the stage `bad` declares input type
`string` while its upstream `src` stores an int, so the input reification
fails at run time — and the run surfaces `RuntimeError`, not
`TypeMismatch`. -/
theorem claim_C1_counterexample :
    (runP pBadTy "bad" Ty.tstr 1 0).1 = .error .RuntimeError ∧
      Error.RuntimeError ≠ Error.TypeMismatch :=
  ⟨rfl, by decide⟩

/-- C1 (amended): a failed input reification at a stage is an exception at
the stage boundary and surfaces as `RuntimeError`; `TypeMismatch` is
returned only by the final fetch of the target's value.  Formally: whenever a
run returns `TypeMismatch`, the thread count was valid, the closure
computation succeeded, the scheduler loop finished without any stage failure,
and the target's stored value exists but its runtime type differs from the
requested one. -/
theorem claim_C1 (p : PState) (tgt : Key) (ty : Ty) (n hc : Nat)
    (h : (runP p tgt ty n hc).1 = .error .TypeMismatch) :
    ¬ (n = 0 ∨ (hc ≠ 0 ∧ n > hc)) ∧
    (∀ e, get_all_upstream_stages p.upstream_edges tgt ≠ .error e) ∧
    (∀ S, get_all_upstream_stages p.upstream_edges tgt = .ok S →
      (runLoopResult p S).2 = false ∧
      alookup (runLoopResult p S).1 tgt ≠ none ∧
      ∀ v, alookup (runLoopResult p S).1 tgt = some v → tyOf v ≠ ty) := by
  by_cases hcnd : n = 0 ∨ (hc ≠ 0 ∧ n > hc)
  · exfalso
    have hq : runP p tgt ty n hc = (.error .InvalidThreadCount, p) := by
      unfold runP
      rw [if_pos hcnd]
    rw [hq] at h
    simp at h
  · refine ⟨hcnd, ?_, ?_⟩
    · intro e hbfs
      rw [runP_bfs_err hcnd hbfs] at h
      simp only [] at h
      injection h with h2
      rw [(gaus_err_char hbfs).1] at h2
      exact Error.noConfusion h2
    · intro S hbfs
      rcases hr2 : (runLoopResult p S).2 with _ | _
      · rcases hlk : alookup (runLoopResult p S).1 tgt with _ | v
        · rw [runP_fetch_none hcnd hbfs hr2 hlk] at h
          simp at h
        · by_cases hty : tyOf v = ty
          · rw [runP_fetch_some hcnd hbfs hr2 hlk, if_pos hty] at h
            simp at h
          · refine ⟨rfl, by simp, ?_⟩
            intro w hw
            injection hw with hw
            rw [← hw]
            exact hty
      · rw [runP_loop_fail hcnd hbfs hr2] at h
        simp at h

/-- C1 witness (of the amended claim): asking the one-source pipeline for
`src` at type `string` returns `TypeMismatch`, and indeed the mismatch is at
the final fetch: the loop succeeded and `src` holds an int. -/
theorem claim_C1_witness :
    tyOf (Val.vint 5) ≠ Ty.tstr :=
  ((claim_C1 pOneI "src" Ty.tstr 1 0 rfl).2.2 ["src"] rfl).2.2 (Val.vint 5) rfl

/-- C2 counterexample: `pRan` holds the previous run's value for `src`; a new
run with zero workers returns `InvalidThreadCount` with the result store NOT
cleared — the original claim fails for the `InvalidThreadCount` outcome. -/
theorem claim_C2_counterexample :
    runP pRan "src" Ty.tint 0 4 = (.error .InvalidThreadCount, pRan) ∧
      pRan.stage_results ≠ [] :=
  ⟨rfl, by decide⟩

/-- C2 (amended): the result store is cleared at the start of every run whose
thread count passes validation — such a run behaves exactly as if the store
were empty on entry, and its post-run store only ever contains keys written
by this run (members of the target's upstream closure).  A run rejected with
`InvalidThreadCount` returns before the clear and leaves the state, store
included, untouched. -/
theorem claim_C2 (p : PState) (tgt : Key) (ty : Ty) (n hc : Nat) :
    ((n = 0 ∨ (hc ≠ 0 ∧ n > hc)) →
      runP p tgt ty n hc = (.error .InvalidThreadCount, p)) ∧
    (¬ (n = 0 ∨ (hc ≠ 0 ∧ n > hc)) →
      runP p tgt ty n hc = runP { p with stage_results := [] } tgt ty n hc ∧
      ∀ k, (alookup (runP p tgt ty n hc).2.stage_results k).isSome = true →
        ReachUp p.upstream_edges tgt k) := by
  constructor
  · intro hcnd
    unfold runP
    rw [if_pos hcnd]
  · intro hcnd
    constructor
    · unfold runP
      rw [if_neg hcnd, if_neg hcnd]
      rfl
    · rcases hbfs : get_all_upstream_stages p.upstream_edges tgt with e | S
      · rw [runP_bfs_err hcnd hbfs]
        intro k hk
        simp [alookup] at hk
      · obtain ⟨hnd, hmemS, hsome⟩ := gaus_ok_char hbfs
        have hsub : ∀ k, (alookup (runLoopResult p S).1 k).isSome = true → k ∈ S := by
          rw [runLoopResult_eq]
          refine runLoop_store_sub p.stages p.downstream_edges S _ _ _ _ ?_ ?_
          · intro k hk
            exact ((mem_initReady k).mp hk).1
          · intro k hk
            simp [alookup] at hk
        have hst : (runP p tgt ty n hc).2.stage_results = (runLoopResult p S).1 := by
          rcases hr2 : (runLoopResult p S).2 with _ | _
          · rcases hlk : alookup (runLoopResult p S).1 tgt with _ | v
            · rw [runP_fetch_none hcnd hbfs hr2 hlk]
            · by_cases hty : tyOf v = ty
              · rw [runP_fetch_some hcnd hbfs hr2 hlk, if_pos hty]
              · rw [runP_fetch_some hcnd hbfs hr2 hlk, if_neg hty]
          · rw [runP_loop_fail hcnd hbfs hr2]
        intro k hk
        rw [hst] at hk
        exact (hmemS k).mp (hsub k hk)

/-- C2 witness (of the amended claim): running `pRan` — whose store is
non-empty — with one worker gives the same outcome as running it with the
store already cleared. -/
theorem claim_C2_witness :
    runP pRan "src" Ty.tint 1 0
      = runP { pRan with stage_results := [] } "src" Ty.tint 1 0 :=
  ((claim_C2 pRan "src" Ty.tint 1 0).2 (by decide)).1

/-- C3: if a run succeeds, the key set of the post-run result store is
exactly the upstream closure of the target: every closure member has an
entry and no key outside the closure does. -/
theorem claim_C3 (p : PState) (tgt : Key) (ty : Ty) (n hc : Nat) (v : Val)
    (p' : PState) (hb : Built p) (h : runP p tgt ty n hc = (.ok v, p')) :
    ∀ k, (alookup p'.stage_results k).isSome = true ↔ ReachUp p.upstream_edges tgt k := by
  have hwf := built_wf hb
  by_cases hcnd : n = 0 ∨ (hc ≠ 0 ∧ n > hc)
  · exfalso
    have hq : runP p tgt ty n hc = (.error .InvalidThreadCount, p) := by
      unfold runP
      rw [if_pos hcnd]
    rw [hq] at h
    simp at h
  · rcases hbfs : get_all_upstream_stages p.upstream_edges tgt with e | S
    · rw [runP_bfs_err hcnd hbfs] at h
      simp at h
    · obtain ⟨hnd, hmemS, hsome⟩ := gaus_ok_char hbfs
      rcases hr2 : (runLoopResult p S).2 with _ | _
      · have hLR : runLoopF p.stages p.downstream_edges S
            ((initReady (initIndeg p.in_degree S) S).length
              + isum (initIndeg p.in_degree S) + 1)
            [] (initIndeg p.in_degree S) (initReady (initIndeg p.in_degree S) S)
            = ((runLoopResult p S).1, false) := by
          rw [← hr2, ← runLoopResult_eq]
        have hcomp := runLoop_complete (sinv_init hwf hbfs) _ _ _ _
          (linv_init hwf hbfs) (le_refl _) ((runLoopResult p S).1) hLR
        rcases hlk : alookup (runLoopResult p S).1 tgt with _ | w
        · exfalso
          have htS : tgt ∈ S := (hmemS tgt).mpr Relation.ReflTransGen.refl
          have := hcomp.1 tgt htS
          rw [hlk] at this
          simp at this
        · by_cases hty : tyOf w = ty
          · rw [runP_fetch_some hcnd hbfs hr2 hlk, if_pos hty] at h
            have hp' : p' = { p with stage_results := (runLoopResult p S).1 } := by
              injection h with h1 h2
              exact h2.symm
            rw [hp']
            intro k
            constructor
            · intro hk
              exact (hmemS k).mp (hcomp.2 k hk)
            · intro hk
              exact hcomp.1 k ((hmemS k).mpr hk)
          · rw [runP_fetch_some hcnd hbfs hr2 hlk, if_neg hty] at h
            simp at h
      · rw [runP_loop_fail hcnd hbfs hr2] at h
        simp at h

/-- C3 witness: after the successful run of `src → incr` for `incr`, the
store has an entry for the closure member `src`. -/
theorem claim_C3_witness :
    (alookup (runP pTwo "incr" Ty.tint 1 0).2.stage_results "src").isSome = true ↔
      ReachUp pTwo.upstream_edges "incr" "src" :=
  claim_C3 pTwo "incr" Ty.tint 1 0 (Val.vint 6) (runP pTwo "incr" Ty.tint 1 0).2
    built_pTwo rfl "src"

/-- C5: each of the three stage constructors fails with `StageAlreadyExists`
on a duplicate key (leaving the state unchanged), fails with `UnknownStage`
when a supplied upstream port is unregistered (leaving the state unchanged),
and otherwise registers the stage, records its upstream list in declaration
order, appends the reverse edges in `downstream_edges`, sets the in-degree to
the number of upstream ports, and returns a port carrying exactly the given
key. -/
theorem claim_C5 (p : PState) (hb : Built p) (id : Key) (outTy : Ty)
    (f0 : Unit → Except Unit Val) (f1 : Val → Except Unit Val) (up in1 in2 : Port) :
    (((alookup p.stages id).isSome = true →
        add_stage0 p id outTy f0 = (.error .StageAlreadyExists, p)) ∧
      (alookup p.stages id = none →
        (add_stage0 p id outTy f0).1 = .ok ⟨outTy, id⟩ ∧
        (alookup (add_stage0 p id outTy f0).2.stages id).isSome = true ∧
        upList (add_stage0 p id outTy f0).2.upstream_edges id = [] ∧
        alookup (add_stage0 p id outTy f0).2.in_degree id = some 0)) ∧
    (((alookup p.stages id).isSome = true →
        add_stage1 p id outTy f1 up = (.error .StageAlreadyExists, p)) ∧
      (alookup p.stages id = none → alookup p.stages up.id = none →
        add_stage1 p id outTy f1 up = (.error .UnknownStage, p)) ∧
      (alookup p.stages id = none → (alookup p.stages up.id).isSome = true →
        (add_stage1 p id outTy f1 up).1 = .ok ⟨outTy, id⟩ ∧
        (alookup (add_stage1 p id outTy f1 up).2.stages id).isSome = true ∧
        upList (add_stage1 p id outTy f1 up).2.upstream_edges id = [up.id] ∧
        dnList (add_stage1 p id outTy f1 up).2.downstream_edges up.id
          = dnList p.downstream_edges up.id ++ [id] ∧
        alookup (add_stage1 p id outTy f1 up).2.in_degree id = some 1)) ∧
    (((alookup p.stages id).isSome = true →
        join p id in1 in2 = (.error .StageAlreadyExists, p)) ∧
      (alookup p.stages id = none → alookup p.stages in1.id = none →
        join p id in1 in2 = (.error .UnknownStage, p)) ∧
      (alookup p.stages id = none → (alookup p.stages in1.id).isSome = true →
        alookup p.stages in2.id = none →
        join p id in1 in2 = (.error .UnknownStage, p)) ∧
      (alookup p.stages id = none → (alookup p.stages in1.id).isSome = true →
        (alookup p.stages in2.id).isSome = true →
        (join p id in1 in2).1 = .ok ⟨.tpair in1.ty in2.ty, id⟩ ∧
        (alookup (join p id in1 in2).2.stages id).isSome = true ∧
        upList (join p id in1 in2).2.upstream_edges id = [in1.id, in2.id] ∧
        (in1.id ≠ in2.id →
          dnList (join p id in1 in2).2.downstream_edges in1.id
              = dnList p.downstream_edges in1.id ++ [id] ∧
          dnList (join p id in1 in2).2.downstream_edges in2.id
              = dnList p.downstream_edges in2.id ++ [id]) ∧
        (in1.id = in2.id →
          dnList (join p id in1 in2).2.downstream_edges in2.id
              = dnList p.downstream_edges in2.id ++ [id, id]) ∧
        alookup (join p id in1 in2).2.in_degree id = some 2)) := by
  have hwf := built_wf hb
  refine ⟨⟨?_, ?_⟩, ⟨?_, ?_, ?_⟩, ⟨?_, ?_, ?_, ?_⟩⟩
  · intro h
    unfold add_stage0
    rw [if_pos h]
  · intro hdup
    obtain ⟨h1, hst, hsid, hsne, huid, hune, hdid, hdne, hiid, hine, hres⟩ :=
      @add_stage0_spec p id outTy f0 hwf hdup
    exact ⟨h1, by rw [hsid]; rfl, upList_eq huid, hiid⟩
  · intro h
    unfold add_stage1
    rw [if_pos h]
  · intro hdup hupn
    unfold add_stage1
    rw [if_neg (by simp [hdup]), if_pos (by rw [hupn]; rfl)]
  · intro hdup hup
    obtain ⟨h1, hst, hsid, hsne, huid, hune, hdid, hdup2, hdne, hiid, hine, hres⟩ :=
      @add_stage1_spec p id outTy f1 up hwf hdup hup
    exact ⟨h1, by rw [hsid]; rfl, upList_eq huid, dnList_eq hdup2, hiid⟩
  · intro h
    unfold join
    rw [if_pos h]
  · intro hdup h1n
    unfold join
    rw [if_neg (by simp [hdup]), if_pos (by rw [h1n]; rfl)]
  · intro hdup h1s h2n
    unfold join
    rw [if_neg (by simp [hdup]), if_neg (isSome_not_isNone h1s),
      if_pos (by rw [h2n]; rfl)]
  · intro hdup h1s h2s
    obtain ⟨hfst, hst, hsid, hsne, huid, hune, hdid, hdne12, hdeq12, hdne, hiid, hine,
        hres, hdnraw⟩ := join_spec hwf hdup h1s h2s
    refine ⟨hfst, by rw [hsid]; rfl, upList_eq huid, ?_, ?_, hiid⟩
    · intro hne
      exact ⟨dnList_eq (hdne12 hne).1, dnList_eq (hdne12 hne).2⟩
    · intro heq
      exact dnList_eq (hdeq12 heq)

/-- C5 witness: adding a source to the empty pipeline returns the port with
the given key. -/
theorem claim_C5_witness : (add_stage0 emptyP "s" Ty.tint srcFn).1 = .ok ⟨Ty.tint, "s"⟩ :=
  ((claim_C5 emptyP Built.empty "s" Ty.tint srcFn incrFn ⟨Ty.tint, "u"⟩
    ⟨Ty.tint, "v"⟩ ⟨Ty.tint, "w"⟩).1.2 rfl).1

end PipelineModel
